import Mathlib

/-!
Verification development for the `gh-mmc` plagiarism-signal engine
(package `similarity`, command `check`).

Strings are modelled as `List Char` (Go slices bytes, but every marker the
code searches for is ASCII, so byte positions and rune positions delimit the
same substrings).  Floating-point similarity percentages are modelled as
exact rationals (`ℚ`): every arithmetic expression the code evaluates is of
the form `i / u * 100` and both the code and the specification compute the
same expression, so exact arithmetic distinguishes the same cases.
-/

namespace Mmc

/-- Go `unicode.IsSpace` restricted to the Latin-1 range (the whitespace the
code can meet in source files): space, tab, newline, vertical tab, form
feed, carriage return, next-line and no-break space. -/
def isSpace (c : Char) : Bool :=
  c = ' ' || c = '\t' || c = '\n' || c = '\x0b' || c = '\x0c' || c = '\r' ||
  c = '\u0085' || c = '\u00A0'

/-- The character list of a string literal. -/
def chars (s : String) : List Char := s.toList

/-- Left half of Go `strings.TrimSpace`. -/
def trimLeft (l : List Char) : List Char := l.dropWhile isSpace

/-- Right half of Go `strings.TrimSpace`, written structurally so that it
reduces definitionally. -/
def trimRight : List Char → List Char
  | [] => []
  | c :: t =>
    match trimRight t with
    | [] => if isSpace c then [] else [c]
    | r => c :: r

/-- Go `strings.TrimSpace`. -/
def trimSpace (l : List Char) : List Char := trimRight (trimLeft l)

/-- Go `strings.Index sub` over character lists: the first position where
`sub` occurs, `none` when it does not occur (Go returns `-1`). -/
def indexOfSub : List Char → List Char → Option Nat
  | l, sub =>
    if sub.isPrefixOf l then some 0
    else
      match l with
      | [] => none
      | _ :: t => (indexOfSub t sub).map (· + 1)

/-- Go `strings.Fields`, accumulator form (structural recursion). -/
def fieldsAux : List Char → List Char → List (List Char)
  | acc, [] => if acc = [] then [] else [acc.reverse]
  | acc, c :: t =>
    if isSpace c then
      if acc = [] then fieldsAux [] t else acc.reverse :: fieldsAux [] t
    else fieldsAux (c :: acc) t

/-- Go `strings.Fields`: maximal runs of non-whitespace characters. -/
def fields (l : List Char) : List (List Char) := fieldsAux [] l

/-- Go `strings.Join fs " "`. -/
def joinSpace : List (List Char) → List Char
  | [] => []
  | [f] => f
  | f :: rest => f ++ ' ' :: joinSpace rest

/-- `strings.Join(strings.Fields(line), " ")`: collapse whitespace runs to a
single space. -/
def collapse (l : List Char) : List Char := joinSpace (fields l)

/-- The inline `// ...` strip block of `normalizeLine`: cut at the first
marker and re-trim (the marker-absent case leaves the line unchanged). -/
def stripSlashComment (line : List Char) : List Char :=
  match indexOfSub line (chars "//") with
  | some idx => trimSpace (line.take idx)
  | none => line

/-- The inline `/* ... */` strip block of `normalizeLine`: remove the first
span when it terminates within the line, otherwise cut from the marker. -/
def stripBlockComment (line : List Char) : List Char :=
  match indexOfSub line (chars "/*") with
  | some idx =>
    match indexOfSub (line.drop idx) (chars "*/") with
    | some endIdx => trimSpace (line.take idx ++ line.drop (idx + endIdx + 2))
    | none => trimSpace (line.take idx)
  | none => line

/-- The inline `# ...` strip block of `normalizeLine`. -/
def stripHashComment (line : List Char) : List Char :=
  match indexOfSub line (chars "#") with
  | some idx => trimSpace (line.take idx)
  | none => line

/-- `normalizeLine` from `pkg/similarity`: trim, drop empty lines and
full-line comments, strip inline `//`, `/* ... */` and `#` comments,
collapse whitespace.  (Go re-checks emptiness only when a strip fired; when
no marker was found the line is unchanged and already known non-empty, so
the unconditional emptiness checks below are equivalent.) -/
def normalizeLine (line0 : List Char) : List Char :=
  let line := trimSpace line0
  if line = [] then []
  else if (chars "<!--").isPrefixOf line then []
  else if (chars "//").isPrefixOf line then []
  else if (chars "/*").isPrefixOf line || (chars "*").isPrefixOf line then []
  else if (chars "#").isPrefixOf line then []
  else
    let line1 := stripSlashComment line
    if line1 = [] then []
    else
      let line2 := stripBlockComment line1
      if line2 = [] then []
      else
        let line3 := stripHashComment line2
        if line3 = [] then []
        else collapse line3

/-- `normalizeLines` from `pkg/similarity`: normalize every line and keep
the non-empty results, in order. -/
def normalizeLines (lines : List (List Char)) : List (List Char) :=
  (lines.map normalizeLine).filter (fun l => l ≠ [])


/-! ### Similarity scorer (`pkg/similarity`) -/

/-- `jaccardSimilarity` from `pkg/similarity`: build the set of unique lines
of each input (`map[string]bool` becomes `List.dedup`), count the lines of
the first set that are members of the second, and divide by the size of the
union. -/
def jaccardSimilarity (lines1 lines2 : List (List Char)) : ℚ :=
  let set1 := lines1.dedup
  let set2 := lines2.dedup
  let intersection := (set1.filter (fun line => line ∈ set2)).length
  let union := set1.length + set2.length - intersection
  if union = 0 then 0
  else ((intersection : ℚ) / (union : ℚ)) * 100

/-- `CalculateSimilarity` from `pkg/similarity`.  File reads are modelled by
a read map `fs : path → Option contents`; `none` is a read error, which the
function propagates (`Option.none` plays the role of the Go error). -/
def CalculateSimilarity (fs : String → Option (List (List Char)))
    (file1 file2 : String) : Option ℚ :=
  match fs file1 with
  | none => none
  | some content1 =>
    match fs file2 with
    | none => none
    | some content2 =>
      let n1 := normalizeLines content1
      let n2 := normalizeLines content2
      if n1 = [] ∧ n2 = [] then some 100
      else if n1 = [] ∨ n2 = [] then some 0
      else some (jaccardSimilarity n1 n2)

/-- Modelled from the spec's words, for the refinement claim about the
scorer: both inputs empty → `100`; exactly one empty → `0`; otherwise the
Jaccard coefficient `|A ∩ B| / |A ∪ B| * 100` over the sets of unique
normalized lines, with `0` returned defensively on an empty union. -/
def specSimilarity (n1 n2 : List (List Char)) : ℚ :=
  if n1 = [] ∧ n2 = [] then 100
  else if n1 = [] ∨ n2 = [] then 0
  else
    let A : Finset (List Char) := n1.toFinset
    let B : Finset (List Char) := n2.toFinset
    if (A ∪ B).card = 0 then 0
    else (((A ∩ B).card : ℚ) / ((A ∪ B).card : ℚ)) * 100

/-! ### Comparison engine (`CompareAssignments` in `pkg/similarity`) -/

/-- `FileComparison` from `pkg/similarity`. -/
structure FileComparison where
  file1 : String
  file2 : String
  similarity : ℚ
deriving DecidableEq, Repr

/-- `AssignmentComparison` from `pkg/similarity`. -/
structure AssignmentComparison where
  assignmentName : String
  fileComparisons : List FileComparison
  maxSimilarity : ℚ
deriving DecidableEq, Repr

/-- The discovery results `CompareAssignments` consumes, abstracting the
file system walks of the corpus scanner:
`studentFolders` is the result of `FindStudentFolders` (distinct directory
entries), `assignments` the sorted union computed from `FindAssignments`,
`hasAssignment s a` the `os.Stat` existence check on
`classroom/s/20-assignments/a`, `findFiles s a` the result of
`FindFilesWithExtension` (`none` is an error), and `calcSim f1 f2` the
result of `CalculateSimilarity` on two paths (`none` is an error). -/
structure Env where
  studentFolders : List String
  assignments : List String
  hasAssignment : String → String → Bool
  findFiles : String → String → Option (List String)
  calcSim : String → String → Option ℚ

/-- The nested map `Results` of `ComparisonResult`: a cell per
`(student1, student2, assignment)` key; `none` is an absent key. -/
def Mat : Type := String → String → String → Option AssignmentComparison

/-- The matrix with no cells. -/
def emptyMat : Mat := fun _ _ _ => none

/-- One Go map write `Results[s1][s2][a] = c`. -/
def storeCell (m : Mat) (s1 s2 a : String) (c : AssignmentComparison) : Mat :=
  fun x y z => if x = s1 ∧ y = s2 ∧ z = a then some c else m x y z

/-- The reversed comparison stored for the mirrored key: every file pair is
swapped, similarity and maximum unchanged. -/
def swapFC (fc : FileComparison) : FileComparison :=
  { file1 := fc.file2, file2 := fc.file1, similarity := fc.similarity }

/-- `reversedComparisons` plus the surrounding `AssignmentComparison`
rebuild in `CompareAssignments`. -/
def reverseComp (c : AssignmentComparison) : AssignmentComparison :=
  { assignmentName := c.assignmentName
    fileComparisons := c.fileComparisons.map swapFC
    maxSimilarity := c.maxSimilarity }

/-- The ordered pairs the nested `for i / for j := i+1` loops enumerate. -/
def pairsOf : List String → List (String × String)
  | [] => []
  | s :: rest => rest.map (fun t => (s, t)) ++ pairsOf rest

/-- The inner scoring loop: every `(file1, file2)` combination is scored,
failed scorings are skipped.  Order follows the loop nesting. -/
def scoreAll (calcSim : String → String → Option ℚ)
    (files1 files2 : List String) : List FileComparison :=
  files1.flatMap fun file1 =>
    files2.filterMap fun file2 =>
      (calcSim file1 file2).map fun sim =>
        { file1 := file1, file2 := file2, similarity := sim }

/-- The running-maximum loop `maxSim := 0.0; if sim > maxSim ...`. -/
def maxSimOf (comparisons : List FileComparison) : ℚ :=
  comparisons.foldl (fun maxSim c => if c.similarity > maxSim then c.similarity else maxSim) 0

/-- Descending insertion into a list sorted by similarity. -/
def insertFCDesc (fc : FileComparison) : List FileComparison → List FileComparison
  | [] => [fc]
  | x :: xs => if fc.similarity > x.similarity then fc :: x :: xs else x :: insertFCDesc fc xs

/-- The `sort.Slice` call ordering comparisons by similarity, highest
first (modelled by insertion sort; the observable contract is a descending
permutation). -/
def sortFCDesc (l : List FileComparison) : List FileComparison :=
  l.foldr insertFCDesc []

/-- The body of the pair loop for one `(student1, student2, assignment)`:
`none` when one of the `continue` statements fires (assignment folder
missing, file-walk error, zero candidate files), otherwise the stored cell.
The `Nat` component counts the `CalculateSimilarity` calls performed. -/
def cellFor (env : Env) (student1 student2 a : String) :
    Option AssignmentComparison × Nat :=
  if env.hasAssignment student1 a = false then (none, 0)
  else
    match env.findFiles student1 a with
    | none => (none, 0)
    | some files1 =>
      if files1 = [] then (none, 0)
      else if env.hasAssignment student2 a = false then (none, 0)
      else
        match env.findFiles student2 a with
        | none => (none, 0)
        | some files2 =>
          if files2 = [] then (none, 0)
          else
            let comparisons := scoreAll env.calcSim files1 files2
            (some { assignmentName := a
                    fileComparisons := sortFCDesc comparisons
                    maxSimilarity := maxSimOf comparisons },
             files1.length * files2.length)

/-- Processing of one student pair for one assignment: store the cell under
both orderings of the pair, or skip. -/
def processPair (env : Env) (a : String) (mn : Mat × Nat)
    (p : String × String) : Mat × Nat :=
  match cellFor env p.1 p.2 a with
  | (none, k) => (mn.1, mn.2 + k)
  | (some c, k) =>
    (storeCell (storeCell mn.1 p.1 p.2 a c) p.2 p.1 a (reverseComp c), mn.2 + k)

/-- The two nested comparison loops of `CompareAssignments`: for each
assignment, for each ordered student pair `(i, j)` with `i < j`, build and
store the cell.  The `Nat` result counts file-pair scorings. -/
def buildRun (env : Env) : Mat × Nat :=
  env.assignments.foldl
    (fun mn a => (pairsOf env.studentFolders).foldl (processPair env a) mn)
    (emptyMat, 0)

/-- `CompareAssignments`: the precondition check and the comparison loops.
The error case carries the message of the Go error; the scoring count is
returned alongside to state the amount of comparison work performed. -/
def CompareAssignments (env : Env) :
    Except String (Mat × List String) × Nat :=
  if env.studentFolders.length < 2 then
    (Except.error "need at least 2 student folders to compare", 0)
  else
    (Except.ok ((buildRun env).1, env.assignments), (buildRun env).2)

/-! ### Report builder (`printOverallSummary` in `cmd/check`) -/

/-- `FileComparisonDetail` from `cmd/check`. -/
structure FileComparisonDetail where
  file1 : String
  file2 : String
  similarity : ℚ
deriving DecidableEq, Repr

/-- `AssignmentDetail` from `cmd/check`. -/
structure AssignmentDetail where
  name : String
  maxSimilarity : ℚ
  fileComparisons : List FileComparisonDetail
deriving DecidableEq, Repr

/-- `StudentPair` from `cmd/check`. -/
structure StudentPair where
  student1 : String
  student2 : String
  flaggedAssignments : List AssignmentDetail
  maxSimilarity : ℚ
deriving DecidableEq, Repr

/-- The zero value a fresh Go `StudentPair` literal starts from (its
`MaxSimilarity` field starts at `0.0`). -/
def initPair (s1 s2 : String) : StudentPair :=
  { student1 := s1, student2 := s2, flaggedAssignments := [], maxSimilarity := 0 }

/-- The per-assignment body of the pair loop in `printOverallSummary`:
skip a filtered-out assignment, look the cell up, and when
`MaxSimilarity >= threshold` collect the file comparisons at or above the
threshold; append a flagged assignment only when that list is non-empty. -/
def flagStep (results : Mat) (threshold : ℚ) (filterAssignment : Option String)
    (s1 s2 : String) (pair : StudentPair) (a : String) : StudentPair :=
  if (match filterAssignment with
      | some fa => a ≠ fa
      | none => false : Bool) then pair
  else
    match results s1 s2 a with
    | none => pair
    | some comp =>
      if comp.maxSimilarity ≥ threshold then
        let fileComps := comp.fileComparisons.filterMap fun fc =>
          if fc.similarity ≥ threshold then
            some { file1 := fc.file1, file2 := fc.file2, similarity := fc.similarity }
          else none
        if fileComps = [] then pair
        else
          { pair with
            flaggedAssignments := pair.flaggedAssignments ++
              [{ name := a, maxSimilarity := comp.maxSimilarity,
                 fileComparisons := fileComps }]
            maxSimilarity :=
              if comp.maxSimilarity > pair.maxSimilarity then comp.maxSimilarity
              else pair.maxSimilarity }
      else pair

/-- The summary built for one student pair across all assignments. -/
def buildPair (results : Mat) (assignments : List String) (threshold : ℚ)
    (filterAssignment : Option String) (s1 s2 : String) : StudentPair :=
  assignments.foldl (flagStep results threshold filterAssignment s1 s2) (initPair s1 s2)

/-- The student filter `filterStudent == "" || pair.Student1 == filterStudent
|| pair.Student2 == filterStudent` (`none` models the empty string). -/
def studentFilterOk (filterStudent : Option String) (pair : StudentPair) : Prop :=
  match filterStudent with
  | none => True
  | some u => pair.student1 = u ∨ pair.student2 = u

instance (fs : Option String) (p : StudentPair) : Decidable (studentFilterOk fs p) := by
  unfold studentFilterOk; cases fs <;> infer_instance

/-- The content of `pairMap` in `printOverallSummary`, as the list in loop
order: every ordered student pair with at least one flagged assignment that
passes the student filter.  (The Go map has randomized iteration order; the
extraction order is therefore an arbitrary permutation of this list.) -/
def qualifyingPairs (students : List String) (results : Mat)
    (assignments : List String) (threshold : ℚ)
    (filterStudent filterAssignment : Option String) : List StudentPair :=
  (pairsOf students).filterMap fun p =>
    let pair := buildPair results assignments threshold filterAssignment p.1 p.2
    if pair.flaggedAssignments ≠ [] ∧ studentFilterOk filterStudent pair then
      some pair
    else none

/-- The `sort.Slice` comparator in `printOverallSummary`: flagged-assignment
count descending, then pair maximum similarity descending. -/
def pairLess (p q : StudentPair) : Bool :=
  if p.flaggedAssignments.length ≠ q.flaggedAssignments.length then
    decide (p.flaggedAssignments.length > q.flaggedAssignments.length)
  else decide (p.maxSimilarity > q.maxSimilarity)

/-- Insertion into a list sorted by `pairLess`. -/
def insertPair (x : StudentPair) : List StudentPair → List StudentPair
  | [] => [x]
  | y :: ys => if pairLess x y then x :: y :: ys else y :: insertPair x ys

/-- The `sort.Slice` call on the extracted pair list (modelled by insertion
sort; the observable contract is a permutation ordered by `pairLess`). -/
def sortPairs (l : List StudentPair) : List StudentPair :=
  l.foldr insertPair []

/-! ### Diff explorer (`promptAndShowDiff` in `cmd/check`) -/

/-- The action one loop iteration of `promptAndShowDiff` decides on. -/
inductive DiffCommand where
  | exitLoop
  | reprintSummary
  | showCase (caseNum : Nat)
  | showCaseAssignment (caseNum assignmentNum : Nat)
  | errInvalidFormat
  | errInvalidCase
  | errInvalidAssignment
deriving DecidableEq, Repr

/-- Digit-string parsing for `strconv.Atoi`: `none` on an empty string or a
non-digit character. -/
def digitsToNatAux : Nat → List Char → Option Nat
  | acc, [] => some acc
  | acc, c :: t =>
    if c.isDigit then digitsToNatAux (acc * 10 + (c.toNat - '0'.toNat)) t
    else none

/-- See `digitsToNatAux`. -/
def digitsToNat : List Char → Option Nat
  | [] => none
  | c :: t => digitsToNatAux 0 (c :: t)

/-- Go `strconv.Atoi` (sign handling; the Go overflow error cannot change
any branch taken here because every overflowing value also fails the
range checks that follow). -/
def atoi : List Char → Option Int
  | '+' :: rest => (digitsToNat rest).map fun n => (n : Int)
  | '-' :: rest => (digitsToNat rest).map fun n => -(n : Int)
  | s => (digitsToNat s).map fun n => (n : Int)

/-- The fallback `StudentPair` for the modelled index access (unused
whenever the range validation has passed, as in the Go code). -/
def defPair : StudentPair := initPair "" ""

/-- One iteration of the `promptAndShowDiff` loop: trim the input line,
recognize `q`/`Q`, `p`/`P`/`print`, then parse `N` or `N.M` with range
validation.  The second component is the summary list after the iteration —
the loop never modifies it. -/
def diffStep (pairs : List StudentPair) (raw : List Char) :
    DiffCommand × List StudentPair :=
  let input := trimSpace raw
  if input = chars "q" ∨ input = chars "Q" then (.exitLoop, pairs)
  else if input = chars "p" ∨ input = chars "P" ∨ input = chars "print" then
    (.reprintSummary, pairs)
  else
    let parts := input.splitOn '.'
    if parts.length = 0 ∨ parts.length > 2 then (.errInvalidFormat, pairs)
    else
      match atoi (parts.getD 0 []) with
      | none => (.errInvalidCase, pairs)
      | some caseNum =>
        if caseNum < 1 ∨ caseNum > (pairs.length : Int) then (.errInvalidCase, pairs)
        else
          let pair := pairs.getD (caseNum.toNat - 1) defPair
          if parts.length = 2 then
            match atoi (parts.getD 1 []) with
            | none => (.errInvalidAssignment, pairs)
            | some assignmentNum =>
              if assignmentNum < 1 ∨
                  assignmentNum > (pair.flaggedAssignments.length : Int) then
                (.errInvalidAssignment, pairs)
              else (.showCaseAssignment caseNum.toNat assignmentNum.toNat, pairs)
          else (.showCase caseNum.toNat, pairs)

/-! ### Claim C1: the scorer computes the reference Jaccard value -/

theorem dedup_filter_length (n1 n2 : List (List Char)) :
    (n1.dedup.filter (fun line => line ∈ n2.dedup)).length
      = (n1.toFinset ∩ n2.toFinset).card := by
  have hnd : (n1.dedup.filter (fun line => line ∈ n2.dedup)).Nodup :=
    (n1.nodup_dedup).filter _
  have hdf : n1.dedup.toFinset = n1.toFinset := by
    ext x; simp [List.mem_dedup]
  rw [← List.toFinset_card_of_nodup hnd, List.toFinset_filter]
  congr 1
  rw [hdf, ← Finset.filter_mem_eq_inter]
  apply Finset.filter_congr
  intro x _
  simp [List.mem_dedup]

theorem union_length (n1 n2 : List (List Char)) :
    n1.dedup.length + n2.dedup.length
        - (n1.dedup.filter (fun line => line ∈ n2.dedup)).length
      = (n1.toFinset ∪ n2.toFinset).card := by
  have h := Finset.card_union_add_card_inter n1.toFinset n2.toFinset
  have h1 := List.card_toFinset n1
  have h2 := List.card_toFinset n2
  have h3 := dedup_filter_length n1 n2
  have hle : (n1.toFinset ∩ n2.toFinset).card ≤ n1.toFinset.card :=
    Finset.card_le_card Finset.inter_subset_left
  omega

theorem jaccard_eq_finset (n1 n2 : List (List Char)) :
    jaccardSimilarity n1 n2 =
      (if (n1.toFinset ∪ n2.toFinset).card = 0 then 0
       else (((n1.toFinset ∩ n2.toFinset).card : ℚ)
              / ((n1.toFinset ∪ n2.toFinset).card : ℚ)) * 100) := by
  unfold jaccardSimilarity
  simp only
  rw [union_length, dedup_filter_length]

/-- C1: for every pair of readable files, `CalculateSimilarity` returns
exactly the reference value over their normalized line sequences: `100` when
both normalized sequences are empty, `0` when exactly one is empty, and
otherwise `|A ∩ B| / |A ∪ B| * 100` over the sets of unique normalized
lines, with `0` returned defensively on an empty union. -/
theorem calculateSimilarity_matches_spec (fs : String → Option (List (List Char)))
    (file1 file2 : String) (c1 c2 : List (List Char))
    (h1 : fs file1 = some c1) (h2 : fs file2 = some c2) :
    CalculateSimilarity fs file1 file2 =
      some (specSimilarity (normalizeLines c1) (normalizeLines c2)) := by
  unfold CalculateSimilarity specSimilarity
  rw [h1, h2]
  simp only
  by_cases hb : normalizeLines c1 = [] ∧ normalizeLines c2 = []
  · rw [if_pos hb, if_pos hb]
  · rw [if_neg hb, if_neg hb]
    by_cases ho : normalizeLines c1 = [] ∨ normalizeLines c2 = []
    · rw [if_pos ho, if_pos ho]
    · rw [if_neg ho, if_neg ho]
      exact congrArg some (jaccard_eq_finset _ _)

/-- A two-file read map used to instantiate `calculateSimilarity_matches_spec`. -/
def readMapW : String → Option (List (List Char)) :=
  fun f =>
    if f = "f1" then some [chars "hello  world", chars "// note"]
    else if f = "f2" then some [chars "hello world", chars "other"]
    else none

theorem calculateSimilarity_matches_spec_witness :
    CalculateSimilarity readMapW "f1" "f2" =
      some (specSimilarity
        (normalizeLines [chars "hello  world", chars "// note"])
        (normalizeLines [chars "hello world", chars "other"])) :=
  calculateSimilarity_matches_spec readMapW "f1" "f2" _ _ rfl rfl

/-! ### Claim C8: fewer than two students is a configuration error -/

/-- C8: if fewer than two student identities were discovered under the root,
`CompareAssignments` fails with the configuration error before any
comparison work begins: the result is the error value and the scoring count
is zero, so no partial matrix exists. -/
theorem compareAssignments_too_few_students (env : Env)
    (h : env.studentFolders.length < 2) :
    CompareAssignments env =
      (Except.error "need at least 2 student folders to compare", 0) := by
  unfold CompareAssignments
  rw [if_pos h]

/-- A discovery result with a single student folder. -/
def envSingle : Env :=
  { studentFolders := ["solo"]
    assignments := ["a1"]
    hasAssignment := fun _ _ => true
    findFiles := fun _ _ => some ["x"]
    calcSim := fun _ _ => some 100 }

theorem compareAssignments_too_few_students_witness :
    envSingle.studentFolders.length < 2 ∧
      CompareAssignments envSingle =
        (Except.error "need at least 2 student folders to compare", 0) :=
  ⟨by decide, compareAssignments_too_few_students envSingle (by decide)⟩

/-! ### Claim C9: diff explorer input validation -/

/-- A well-formed `N` command for the current summary list. -/
def ValidShowAll (pairs : List StudentPair) (raw : List Char) : Prop :=
  ∃ s n, (trimSpace raw).splitOn '.' = [s] ∧ atoi s = some n ∧
    1 ≤ n ∧ n ≤ (pairs.length : Int)

/-- A well-formed `N.M` command for the current summary list. -/
def ValidShowOne (pairs : List StudentPair) (raw : List Char) : Prop :=
  ∃ s1 s2 n m, (trimSpace raw).splitOn '.' = [s1, s2] ∧ atoi s1 = some n ∧
    1 ≤ n ∧ n ≤ (pairs.length : Int) ∧ atoi s2 = some m ∧
    1 ≤ m ∧ m ≤ ((pairs.getD (n.toNat - 1) defPair).flaggedAssignments.length : Int)

theorem diffStep_state (pairs : List StudentPair) (raw : List Char) :
    (diffStep pairs raw).2 = pairs := by
  simp only [diffStep]
  repeat' split <;> try rfl

theorem atoi_alpha_none :
    atoi (chars "q") = none ∧ atoi (chars "Q") = none ∧ atoi (chars "p") = none ∧
      atoi (chars "P") = none ∧ atoi (chars "print") = none := by decide

theorem diffStep_quit (pairs : List StudentPair) (raw : List Char)
    (h : trimSpace raw = chars "q" ∨ trimSpace raw = chars "Q") :
    diffStep pairs raw = (.exitLoop, pairs) := by
  simp only [diffStep]
  rw [if_pos h]

theorem not_command_of_atoi (raw : List Char) (s : List Char) (n : Int)
    (hsplit : (trimSpace raw).splitOn '.' = [s] ∨
      ∃ s2, (trimSpace raw).splitOn '.' = [s, s2])
    (hatoi : atoi s = some n) :
    ¬(trimSpace raw = chars "q" ∨ trimSpace raw = chars "Q") ∧
    ¬(trimSpace raw = chars "p" ∨ trimSpace raw = chars "P" ∨
      trimSpace raw = chars "print") := by
  constructor
  · rintro (h | h) <;> rw [h] at hsplit <;>
      rcases hsplit with hsplit | ⟨s2, hsplit⟩ <;>
      first
      | (have hs : chars "q" = s := by
          rw [show (chars "q").splitOn '.' = [chars "q"] from by decide] at hsplit
          simpa using hsplit
         rw [← hs, atoi_alpha_none.1] at hatoi; exact Option.noConfusion hatoi)
      | (have hs : chars "Q" = s := by
          rw [show (chars "Q").splitOn '.' = [chars "Q"] from by decide] at hsplit
          simpa using hsplit
         rw [← hs, atoi_alpha_none.2.1] at hatoi; exact Option.noConfusion hatoi)
      | (rw [show (chars "q").splitOn '.' = [chars "q"] from by decide] at hsplit
         simp at hsplit)
      | (rw [show (chars "Q").splitOn '.' = [chars "Q"] from by decide] at hsplit
         simp at hsplit)
  · rintro (h | h | h) <;> rw [h] at hsplit <;>
      rcases hsplit with hsplit | ⟨s2, hsplit⟩ <;>
      first
      | (have hs : chars "p" = s := by
          rw [show (chars "p").splitOn '.' = [chars "p"] from by decide] at hsplit
          simpa using hsplit
         rw [← hs, atoi_alpha_none.2.2.1] at hatoi; exact Option.noConfusion hatoi)
      | (have hs : chars "P" = s := by
          rw [show (chars "P").splitOn '.' = [chars "P"] from by decide] at hsplit
          simpa using hsplit
         rw [← hs, atoi_alpha_none.2.2.2.1] at hatoi; exact Option.noConfusion hatoi)
      | (have hs : chars "print" = s := by
          rw [show (chars "print").splitOn '.' = [chars "print"] from by decide] at hsplit
          simpa using hsplit
         rw [← hs, atoi_alpha_none.2.2.2.2] at hatoi; exact Option.noConfusion hatoi)
      | (rw [show (chars "p").splitOn '.' = [chars "p"] from by decide] at hsplit
         simp at hsplit)
      | (rw [show (chars "P").splitOn '.' = [chars "P"] from by decide] at hsplit
         simp at hsplit)
      | (rw [show (chars "print").splitOn '.' = [chars "print"] from by decide] at hsplit
         simp at hsplit)

theorem diffStep_case_out_of_range (pairs : List StudentPair) (raw : List Char)
    (s : List Char) (n : Int)
    (hsplit : (trimSpace raw).splitOn '.' = [s]) (hatoi : atoi s = some n)
    (hrange : n < 1 ∨ n > (pairs.length : Int)) :
    diffStep pairs raw = (.errInvalidCase, pairs) := by
  obtain ⟨hq, hp⟩ := not_command_of_atoi raw s n (Or.inl hsplit) hatoi
  simp only [diffStep]
  rw [if_neg hq, if_neg hp, hsplit]
  simp only [List.length_cons, List.length_nil, List.getD_cons_zero, hatoi]
  rw [if_neg (by omega : ¬((1 : Nat) = 0 ∨ (1 : Nat) > 2))]
  rw [if_pos hrange]

theorem diffStep_assignment_out_of_range (pairs : List StudentPair)
    (raw : List Char) (s1 s2 : List Char) (n m : Int)
    (hsplit : (trimSpace raw).splitOn '.' = [s1, s2]) (hatoi1 : atoi s1 = some n)
    (hn1 : 1 ≤ n) (hn2 : n ≤ (pairs.length : Int)) (hatoi2 : atoi s2 = some m)
    (hrange : m < 1 ∨
      m > ((pairs.getD (n.toNat - 1) defPair).flaggedAssignments.length : Int)) :
    diffStep pairs raw = (.errInvalidAssignment, pairs) := by
  obtain ⟨hq, hp⟩ := not_command_of_atoi raw s1 n (Or.inr ⟨s2, hsplit⟩) hatoi1
  simp only [diffStep]
  rw [if_neg hq, if_neg hp, hsplit]
  simp only [List.length_cons, List.length_nil, List.getD_cons_zero,
    List.getD_cons_succ, hatoi1, hatoi2]
  rw [if_neg (by omega : ¬((2 : Nat) = 0 ∨ (2 : Nat) > 2))]
  rw [if_neg (by omega : ¬(n < 1 ∨ n > (pairs.length : Int)))]
  rw [if_pos trivial, if_pos hrange]

theorem diffStep_error_complete (pairs : List StudentPair) (raw : List Char)
    (hq : ¬(trimSpace raw = chars "q" ∨ trimSpace raw = chars "Q"))
    (hp : ¬(trimSpace raw = chars "p" ∨ trimSpace raw = chars "P" ∨
      trimSpace raw = chars "print"))
    (hall : ¬ValidShowAll pairs raw) (hone : ¬ValidShowOne pairs raw) :
    (diffStep pairs raw).1 = .errInvalidFormat ∨
    (diffStep pairs raw).1 = .errInvalidCase ∨
    (diffStep pairs raw).1 = .errInvalidAssignment := by
  simp only [diffStep]
  rw [if_neg hq, if_neg hp]
  set parts := (trimSpace raw).splitOn '.' with hparts
  by_cases h0 : parts.length = 0 ∨ parts.length > 2
  · rw [if_pos h0]; left; rfl
  · rw [if_neg h0]
    push_neg at h0
    cases hA : atoi (parts.getD 0 []) with
    | none => right; left; rfl
    | some n =>
      by_cases hr : n < 1 ∨ n > (pairs.length : Int)
      · simp only []
        rw [if_pos hr]; right; left; rfl
      · simp only []
        rw [if_neg hr]
        push_neg at hr
        by_cases h2 : parts.length = 2
        · rw [if_pos h2]
          obtain ⟨s1, s2, hps⟩ : ∃ a b, parts = [a, b] := by
            match parts, h2 with
            | [a, b], _ => exact ⟨a, b, rfl⟩
          cases hB : atoi (parts.getD 1 []) with
          | none => right; right; rfl
          | some m =>
            by_cases hr2 : m < 1 ∨
                m > ((pairs.getD (n.toNat - 1) defPair).flaggedAssignments.length : Int)
            · simp only []
              rw [if_pos hr2]; right; right; rfl
            · exfalso
              push_neg at hr2
              rw [hps] at hA hB
              refine hone ⟨s1, s2, n, m, hparts.symm.trans hps, by simpa using hA,
                by omega, by omega, by simpa using hB, by omega, by omega⟩
        · rw [if_neg h2]
          exfalso
          have h1 : parts.length = 1 := by omega
          obtain ⟨s, hps⟩ : ∃ a, parts = [a] := by
            match parts, h1 with
            | [a], _ => exact ⟨a, rfl⟩
          rw [hps] at hA
          refine hall ⟨s, n, hparts.symm.trans hps, by simpa using hA, by omega, by omega⟩

/-- C9: in the diff explorer, a numeric token `N` outside
`[1, length of summary list]`, a dotted token `N.M` with `M` outside
`[1, flagged assignments of summary N]`, and any input that is not a
recognized command all produce only an error outcome with the summary list
unchanged (the step never modifies it), and `q` terminates the loop. -/
theorem diffExplorer_validation (pairs : List StudentPair) (raw : List Char) :
    (diffStep pairs raw).2 = pairs ∧
    (trimSpace raw = chars "q" ∨ trimSpace raw = chars "Q" →
      diffStep pairs raw = (.exitLoop, pairs)) ∧
    (∀ (s : List Char) (n : Int),
      (trimSpace raw).splitOn '.' = [s] → atoi s = some n →
      n < 1 ∨ n > (pairs.length : Int) →
      diffStep pairs raw = (.errInvalidCase, pairs)) ∧
    (∀ (s1 s2 : List Char) (n m : Int),
      (trimSpace raw).splitOn '.' = [s1, s2] → atoi s1 = some n →
      1 ≤ n → n ≤ (pairs.length : Int) → atoi s2 = some m →
      (m < 1 ∨
        m > ((pairs.getD (n.toNat - 1) defPair).flaggedAssignments.length : Int)) →
      diffStep pairs raw = (.errInvalidAssignment, pairs)) ∧
    (¬(trimSpace raw = chars "q" ∨ trimSpace raw = chars "Q") →
     ¬(trimSpace raw = chars "p" ∨ trimSpace raw = chars "P" ∨
        trimSpace raw = chars "print") →
     ¬ValidShowAll pairs raw → ¬ValidShowOne pairs raw →
      (diffStep pairs raw).1 = .errInvalidFormat ∨
      (diffStep pairs raw).1 = .errInvalidCase ∨
      (diffStep pairs raw).1 = .errInvalidAssignment) :=
  ⟨diffStep_state pairs raw, diffStep_quit pairs raw,
   fun s n h1 h2 h3 => diffStep_case_out_of_range pairs raw s n h1 h2 h3,
   fun s1 s2 n m h1 h2 h3 h4 h5 h6 =>
     diffStep_assignment_out_of_range pairs raw s1 s2 n m h1 h2 h3 h4 h5 h6,
   diffStep_error_complete pairs raw⟩

/-- A summary list of length two whose first summary has exactly one
flagged assignment (End-to-end scenario 5 of the spec). -/
def pairsW : List StudentPair :=
  [{ student1 := "alice", student2 := "bob"
     flaggedAssignments :=
       [{ name := "hw1", maxSimilarity := 90
          fileComparisons :=
            [{ file1 := "a/f.html", file2 := "b/f.html", similarity := 90 }] }]
     maxSimilarity := 90 },
   { student1 := "carol", student2 := "dave"
     flaggedAssignments := [{ name := "hw1", maxSimilarity := 80, fileComparisons := [] }]
     maxSimilarity := 80 }]

theorem diffExplorer_validation_witness :
    diffStep pairsW (chars "3") = (.errInvalidCase, pairsW) ∧
    diffStep pairsW (chars "1.2") = (.errInvalidAssignment, pairsW) ∧
    diffStep pairsW (chars "q") = (.exitLoop, pairsW) :=
  ⟨(diffExplorer_validation pairsW (chars "3")).2.2.1 (chars "3") 3
      (by decide) (by decide) (by decide),
   (diffExplorer_validation pairsW (chars "1.2")).2.2.2.1 (chars "1") (chars "2") 1 2
      (by decide) (by decide) (by decide) (by decide) (by decide) (by decide),
   (diffExplorer_validation pairsW (chars "q")).2.1 (by decide)⟩

/-! ### Claim C3: the matrix is symmetric and has no diagonal cells -/

theorem pairsOf_mem_mem {l : List String} {x y : String}
    (h : (x, y) ∈ pairsOf l) : x ∈ l ∧ y ∈ l := by
  induction l with
  | nil => simp [pairsOf] at h
  | cons s rest ih =>
    simp only [pairsOf, List.mem_append, List.mem_map] at h
    rcases h with ⟨t, ht, he⟩ | h
    · cases he
      exact ⟨List.mem_cons_self _ _, List.mem_cons_of_mem _ ht⟩
    · exact ⟨List.mem_cons_of_mem _ (ih h).1, List.mem_cons_of_mem _ (ih h).2⟩

theorem pairsOf_ne {l : List String} (hnd : l.Nodup) {x y : String}
    (h : (x, y) ∈ pairsOf l) : x ≠ y := by
  induction l with
  | nil => simp [pairsOf] at h
  | cons s rest ih =>
    simp only [pairsOf, List.mem_append, List.mem_map] at h
    rcases h with ⟨t, ht, he⟩ | h
    · cases he
      exact fun hxy => (List.nodup_cons.mp hnd).1 (hxy ▸ ht)
    · exact ih (List.nodup_cons.mp hnd).2 h

theorem swapFC_swapFC (fc : FileComparison) : swapFC (swapFC fc) = fc := rfl

theorem reverseComp_reverseComp (c : AssignmentComparison) :
    reverseComp (reverseComp c) = c := by
  have hid : swapFC ∘ swapFC = id := funext fun fc => rfl
  cases c with
  | mk n fcs ms => simp [reverseComp, List.map_map, hid]

theorem storeCell_apply (m : Mat) (s1 s2 a : String) (c : AssignmentComparison)
    (x y z : String) :
    storeCell m s1 s2 a c x y z =
      if x = s1 ∧ y = s2 ∧ z = a then some c else m x y z := rfl

/-- The invariant: a stored cell is never diagonal, and its mirror is the
reversed cell. -/
def SymmMat (m : Mat) : Prop :=
  ∀ x y z c, m x y z = some c → x ≠ y ∧ m y x z = some (reverseComp c)

theorem symmMat_empty : SymmMat emptyMat := by
  intro x y z c h
  exact Option.noConfusion h

theorem symmMat_processPair (env : Env) (a : String) (mn : Mat × Nat)
    (p : String × String) (hmn : SymmMat mn.1) (hne : p.1 ≠ p.2) :
    SymmMat (processPair env a mn p).1 := by
  unfold processPair
  cases hc : cellFor env p.1 p.2 a with
  | mk oc k =>
    cases oc with
    | none => exact hmn
    | some c =>
      intro x y z d hd
      dsimp only at hd ⊢
      rw [storeCell_apply, storeCell_apply] at hd
      by_cases h1 : x = p.2 ∧ y = p.1 ∧ z = a
      · rw [if_pos h1] at hd
        obtain ⟨rfl, rfl, rfl⟩ := h1
        injection hd with hd
        subst hd
        refine ⟨fun h => hne h.symm, ?_⟩
        rw [storeCell_apply, storeCell_apply]
        rw [if_neg (fun h => hne h.1), if_pos ⟨rfl, rfl, rfl⟩,
          reverseComp_reverseComp]
      · rw [if_neg h1] at hd
        by_cases h2 : x = p.1 ∧ y = p.2 ∧ z = a
        · rw [if_pos h2] at hd
          obtain ⟨rfl, rfl, rfl⟩ := h2
          injection hd with hd
          subst hd
          refine ⟨hne, ?_⟩
          rw [storeCell_apply, if_pos ⟨rfl, rfl, rfl⟩]
        · rw [if_neg h2] at hd
          obtain ⟨hxy, hm⟩ := hmn x y z d hd
          refine ⟨hxy, ?_⟩
          rw [storeCell_apply, storeCell_apply]
          rw [if_neg (fun h => h2 ⟨h.2.1, h.1, h.2.2⟩),
            if_neg (fun h => h1 ⟨h.2.1, h.1, h.2.2⟩)]
          exact hm

theorem symmMat_foldl_pairs (env : Env) (a : String) (ps : List (String × String))
    (hps : ∀ p ∈ ps, p.1 ≠ p.2) (mn : Mat × Nat) (hmn : SymmMat mn.1) :
    SymmMat (ps.foldl (processPair env a) mn).1 := by
  induction ps generalizing mn with
  | nil => exact hmn
  | cons p rest ih =>
    exact ih (fun q hq => hps q (List.mem_cons_of_mem _ hq))
      _ (symmMat_processPair env a mn p hmn (hps p (List.mem_cons_self _ _)))

theorem symmMat_buildRun (env : Env) (hnd : env.studentFolders.Nodup) :
    SymmMat (buildRun env).1 := by
  unfold buildRun
  have hps : ∀ p ∈ pairsOf env.studentFolders, p.1 ≠ p.2 := by
    intro p hp
    cases p with
    | mk x y => exact pairsOf_ne hnd hp
  have main : ∀ (as : List String) (mn0 : Mat × Nat), SymmMat mn0.1 →
      SymmMat ((as.foldl
        (fun mn a => (pairsOf env.studentFolders).foldl (processPair env a) mn)
        mn0)).1 := by
    intro as
    induction as with
    | nil => intro mn0 h; exact h
    | cons a rest ih =>
      intro mn0 h
      exact ih _ (symmMat_foldl_pairs env a _ hps mn0 h)
  exact main _ _ symmMat_empty

/-- C3: in the matrix produced by `CompareAssignments`, every stored cell
`(A, B, assignment)` has a mirrored cell `(B, A, assignment)` whose file
comparisons are elementwise path-swapped with identical similarity values
and identical `MaxSimilarity`, and no diagonal cell `(A, A, assignment)`
exists.  (The discovered student folders are distinct directory entries,
hence the `Nodup` hypothesis.) -/
theorem compareAssignments_symmetric (env : Env)
    (hnd : env.studentFolders.Nodup) (m : Mat) (as : List String) (k : Nat)
    (hok : CompareAssignments env = (Except.ok (m, as), k)) :
    (∀ A a, m A A a = none) ∧
    (∀ A B a c, m A B a = some c →
      A ≠ B ∧
      ∃ c', m B A a = some c' ∧
        c'.assignmentName = c.assignmentName ∧
        c'.fileComparisons = c.fileComparisons.map swapFC ∧
        c'.maxSimilarity = c.maxSimilarity) := by
  have hm : m = (buildRun env).1 := by
    unfold CompareAssignments at hok
    by_cases h : env.studentFolders.length < 2
    · rw [if_pos h] at hok
      exact absurd (congrArg Prod.fst hok) (by simp)
    · rw [if_neg h] at hok
      have := congrArg Prod.fst hok
      simp only at this
      injection this with this
      injection this with h1 h2
      exact h1.symm
  subst hm
  have hsymm := symmMat_buildRun env hnd
  constructor
  · intro A a
    cases h : (buildRun env).1 A A a with
    | none => rfl
    | some c => exact absurd rfl (hsymm A A a c h).1
  · intro A B a c hc
    obtain ⟨hne, hmir⟩ := hsymm A B a c hc
    exact ⟨hne, reverseComp c, hmir, rfl, rfl, rfl⟩

/-- A two-student discovery result where the single assignment is present
on both sides with one candidate file each. -/
def envPairW : Env :=
  { studentFolders := ["s1", "s2"]
    assignments := ["a1"]
    hasAssignment := fun _ _ => true
    findFiles := fun s _ => some [s ++ "/f.html"]
    calcSim := fun _ _ => some 50 }

/-- The forward cell `envPairW` stores for `("s1", "s2", "a1")`. -/
def cellW : AssignmentComparison :=
  { assignmentName := "a1"
    fileComparisons := [{ file1 := "s1/f.html", file2 := "s2/f.html", similarity := 50 }]
    maxSimilarity := 50 }

theorem compareAssignments_symmetric_witness :
    envPairW.studentFolders.Nodup ∧
    (buildRun envPairW).1 "s1" "s2" "a1" = some cellW ∧
    (buildRun envPairW).1 "s1" "s1" "a1" = none ∧
    ∃ c', (buildRun envPairW).1 "s2" "s1" "a1" = some c' ∧
      c'.assignmentName = cellW.assignmentName ∧
      c'.fileComparisons = cellW.fileComparisons.map swapFC ∧
      c'.maxSimilarity = cellW.maxSimilarity := by
  have h := compareAssignments_symmetric envPairW (by decide)
    (buildRun envPairW).1 envPairW.assignments (buildRun envPairW).2 rfl
  refine ⟨by decide, by decide, h.1 "s1" "a1", ?_⟩
  exact ((h.2 "s1" "s2" "a1" cellW (by decide)).2)

/-! ### Claim C7: missing assignment folders or empty file lists leave no cell -/

theorem cellFor_skip_left (env : Env) (s t a : String)
    (h : env.hasAssignment s a = false ∨ env.findFiles s a = some []) :
    (cellFor env s t a).1 = none := by
  unfold cellFor
  rcases h with h | h
  · rw [if_pos h]
  · by_cases hb : env.hasAssignment s a = false
    · rw [if_pos hb]
    · rw [if_neg hb, h]
      simp

theorem cellFor_skip_right (env : Env) (s t a : String)
    (h : env.hasAssignment s a = false ∨ env.findFiles s a = some []) :
    (cellFor env t s a).1 = none := by
  unfold cellFor
  by_cases h1 : env.hasAssignment t a = false
  · rw [if_pos h1]
  · rw [if_neg h1]
    cases hf : env.findFiles t a with
    | none => rfl
    | some files1 =>
      dsimp only
      by_cases he : files1 = []
      · rw [if_pos he]
      · rw [if_neg he]
        rcases h with h | h
        · rw [if_pos h]
        · by_cases hb : env.hasAssignment s a = false
          · rw [if_pos hb]
          · rw [if_neg hb, h]
            simp

theorem skip_processPair (env : Env) (s t a : String)
    (hcond : env.hasAssignment s a = false ∨ env.findFiles s a = some [])
    (a' : String) (mn : Mat × Nat) (p : String × String)
    (hP : mn.1 s t a = none ∧ mn.1 t s a = none) :
    (processPair env a' mn p).1 s t a = none ∧
      (processPair env a' mn p).1 t s a = none := by
  unfold processPair
  cases hc : cellFor env p.1 p.2 a' with
  | mk oc k =>
    cases oc with
    | none => exact hP
    | some c =>
      dsimp only
      constructor
      · rw [storeCell_apply, storeCell_apply]
        rw [if_neg, if_neg]
        · exact hP.1
        · rintro ⟨h1, h2, h3⟩
          have hnone := cellFor_skip_left env s t a hcond
          rw [h1, h2, h3, hc] at hnone
          exact Option.noConfusion hnone
        · rintro ⟨h1, h2, h3⟩
          have hnone := cellFor_skip_right env s t a hcond
          rw [h2, h1, h3, hc] at hnone
          exact Option.noConfusion hnone
      · rw [storeCell_apply, storeCell_apply]
        rw [if_neg, if_neg]
        · exact hP.2
        · rintro ⟨h1, h2, h3⟩
          have hnone := cellFor_skip_right env s t a hcond
          rw [h1, h2, h3, hc] at hnone
          exact Option.noConfusion hnone
        · rintro ⟨h1, h2, h3⟩
          have hnone := cellFor_skip_left env s t a hcond
          rw [h2, h1, h3, hc] at hnone
          exact Option.noConfusion hnone

/-- C7: if a student lacks the assignment folder or has zero candidate
files for it, no cell for any pair containing that student and that
assignment is present in the matrix, in either orientation — absence is
distinct from a stored 0% comparison. -/
theorem compareAssignments_skip_absent (env : Env) (s t a : String)
    (hcond : env.hasAssignment s a = false ∨ env.findFiles s a = some [])
    (m : Mat) (as : List String) (k : Nat)
    (hok : CompareAssignments env = (Except.ok (m, as), k)) :
    m s t a = none ∧ m t s a = none := by
  have hm : m = (buildRun env).1 := by
    unfold CompareAssignments at hok
    by_cases h : env.studentFolders.length < 2
    · rw [if_pos h] at hok
      exact absurd (congrArg Prod.fst hok) (by simp)
    · rw [if_neg h] at hok
      have := congrArg Prod.fst hok
      simp only at this
      injection this with this
      injection this with h1 h2
      exact h1.symm
  subst hm
  unfold buildRun
  have main : ∀ (as' : List String) (mn0 : Mat × Nat),
      mn0.1 s t a = none ∧ mn0.1 t s a = none →
      (as'.foldl
        (fun mn a' => (pairsOf env.studentFolders).foldl (processPair env a') mn)
        mn0).1 s t a = none ∧
      (as'.foldl
        (fun mn a' => (pairsOf env.studentFolders).foldl (processPair env a') mn)
        mn0).1 t s a = none := by
    intro as'
    induction as' with
    | nil => intro mn0 h; exact h
    | cons a' rest ih =>
      intro mn0 h
      refine ih _ ?_
      have inner : ∀ (ps : List (String × String)) (mn1 : Mat × Nat),
          mn1.1 s t a = none ∧ mn1.1 t s a = none →
          ((ps.foldl (processPair env a') mn1)).1 s t a = none ∧
          ((ps.foldl (processPair env a') mn1)).1 t s a = none := by
        intro ps
        induction ps with
        | nil => intro mn1 h1; exact h1
        | cons p rest2 ih2 =>
          intro mn1 h1
          exact ih2 _ (skip_processPair env s t a hcond a' mn1 p h1)
      exact inner _ mn0 h
  exact main _ _ ⟨rfl, rfl⟩

/-- A discovery result where student `s2` has an empty candidate list for
assignment `a1` (and `s3` lacks the folder entirely). -/
def envSkipW : Env :=
  { studentFolders := ["s1", "s2", "s3"]
    assignments := ["a1"]
    hasAssignment := fun s _ => s ≠ "s3"
    findFiles := fun s _ => if s = "s2" then some [] else some [s ++ "/f.html"]
    calcSim := fun _ _ => some 50 }

theorem compareAssignments_skip_absent_witness :
    (envSkipW.hasAssignment "s2" "a1" = false ∨
      envSkipW.findFiles "s2" "a1" = some []) ∧
    (buildRun envSkipW).1 "s1" "s2" "a1" = none ∧
    (buildRun envSkipW).1 "s2" "s1" "a1" = none :=
  ⟨Or.inr (by decide),
   compareAssignments_skip_absent envSkipW "s2" "s1" "a1" (Or.inr (by decide))
     (buildRun envSkipW).1 envSkipW.assignments (buildRun envSkipW).2 rfl⟩

/-! ### Claim C10: all-failed scorings still store an empty cell, never flagged -/

theorem pairsOf_nodup {l : List String} (hnd : l.Nodup) : (pairsOf l).Nodup := by
  induction l with
  | nil => simp [pairsOf]
  | cons s rest ih =>
    obtain ⟨hs, hrest⟩ := List.nodup_cons.mp hnd
    simp only [pairsOf]
    refine List.Nodup.append ?_ (ih hrest) ?_
    · exact hrest.map fun a b h => by injection h
    · intro x hx hx2
      obtain ⟨t, _, rfl⟩ := List.mem_map.mp hx
      exact hs (pairsOf_mem_mem hx2).1

theorem pairsOf_once {l : List String} (hnd : l.Nodup) {s t : String}
    (h : (s, t) ∈ pairsOf l) : (t, s) ∉ pairsOf l := by
  induction l with
  | nil => simp [pairsOf] at h
  | cons x rest ih =>
    obtain ⟨hx, hrest⟩ := List.nodup_cons.mp hnd
    simp only [pairsOf, List.mem_append, List.mem_map] at h ⊢
    rcases h with ⟨u, hu, he⟩ | h
    · cases he
      rintro (⟨v, hv, he2⟩ | h2)
      · injection he2 with e1 e2
        exact hx (e1 ▸ hu)
      · exact hx (pairsOf_mem_mem h2).2
    · rintro (⟨v, hv, he2⟩ | h2)
      · injection he2 with e1 e2
        exact hx (by rw [e1]; exact (pairsOf_mem_mem h).2)
      · exact ih hrest h h2

theorem processPair_other (env : Env) (a' : String) (mn : Mat × Nat)
    (p : String × String) (s t a : String)
    (h : ¬(a' = a ∧ ((p.1 = s ∧ p.2 = t) ∨ (p.1 = t ∧ p.2 = s)))) :
    (processPair env a' mn p).1 s t a = mn.1 s t a := by
  unfold processPair
  cases hc : cellFor env p.1 p.2 a' with
  | mk oc k =>
    cases oc with
    | none => rfl
    | some c =>
      dsimp only
      rw [storeCell_apply, storeCell_apply, if_neg, if_neg]
      · rintro ⟨e1, e2, e3⟩
        exact h ⟨e3.symm, Or.inl ⟨e1.symm, e2.symm⟩⟩
      · rintro ⟨e1, e2, e3⟩
        exact h ⟨e3.symm, Or.inr ⟨e2.symm, e1.symm⟩⟩

theorem foldl_pairs_stable (env : Env) (a' : String) (s t a : String)
    (ps : List (String × String))
    (hps : ∀ p ∈ ps, ¬(a' = a ∧ ((p.1 = s ∧ p.2 = t) ∨ (p.1 = t ∧ p.2 = s))))
    (mn : Mat × Nat) :
    ((ps.foldl (processPair env a') mn)).1 s t a = mn.1 s t a := by
  induction ps generalizing mn with
  | nil => rfl
  | cons p rest ih =>
    rw [List.foldl_cons, ih (fun q hq => hps q (List.mem_cons_of_mem _ hq)),
      processPair_other env a' mn p s t a (hps p (List.mem_cons_self _ _))]

theorem foldl_pairs_lookup (env : Env) (s t a : String) (hst : s ≠ t)
    (ps : List (String × String)) (hnd : ps.Nodup) (hts : (t, s) ∉ ps)
    (hmem : (s, t) ∈ ps) (mn : Mat × Nat) (hmn : mn.1 s t a = none) :
    ((ps.foldl (processPair env a) mn)).1 s t a = (cellFor env s t a).1 := by
  induction ps generalizing mn with
  | nil => simp at hmem
  | cons p rest ih =>
    obtain ⟨hphd, hptl⟩ := List.nodup_cons.mp hnd
    by_cases hp : p = (s, t)
    · subst hp
      have hval : ((processPair env a mn (s, t))).1 s t a = (cellFor env s t a).1 := by
        unfold processPair
        cases hc : cellFor env s t a with
        | mk oc k =>
          cases oc with
          | none => exact hmn
          | some c =>
            dsimp only
            rw [storeCell_apply, storeCell_apply,
              if_neg (fun h => hst h.1), if_pos ⟨rfl, rfl, rfl⟩]
      rw [List.foldl_cons]
      rw [foldl_pairs_stable env a s t a rest ?_ _, hval]
      intro q hq
      rintro ⟨-, ⟨e1, e2⟩ | ⟨e1, e2⟩⟩
      · have : q = (s, t) := by
          obtain ⟨q1, q2⟩ := q
          dsimp only at e1 e2
          rw [e1, e2]
        exact hphd (this ▸ hq)
      · have : q = (t, s) := by
          obtain ⟨q1, q2⟩ := q
          dsimp only at e1 e2
          rw [e1, e2]
        exact hts (List.mem_cons_of_mem _ (this ▸ hq))
    · have hmem' : (s, t) ∈ rest := by
        rcases List.mem_cons.mp hmem with h | h
        · exact absurd h.symm hp
        · exact h
      have hpre : (processPair env a mn p).1 s t a = none := by
        rw [processPair_other env a mn p s t a ?_]
        · exact hmn
        · rintro ⟨-, ⟨e1, e2⟩ | ⟨e1, e2⟩⟩
          · refine hp ?_
            obtain ⟨q1, q2⟩ := p
            dsimp only at e1 e2
            rw [e1, e2]
          · refine hts ?_
            have : p = (t, s) := by
              obtain ⟨q1, q2⟩ := p
              dsimp only at e1 e2
              rw [e1, e2]
            exact this ▸ List.mem_cons_self _ _
      rw [List.foldl_cons]
      exact ih hptl (fun h => hts (List.mem_cons_of_mem _ h)) hmem' _ hpre

theorem foldl_assignments_stable (env : Env) (s t a : String)
    (as' : List String) (ha : a ∉ as') (mn0 : Mat × Nat) :
    ((as'.foldl
      (fun mn a' => (pairsOf env.studentFolders).foldl (processPair env a') mn)
      mn0)).1 s t a = mn0.1 s t a := by
  induction as' generalizing mn0 with
  | nil => rfl
  | cons a' rest ih =>
    rw [List.foldl_cons, ih (fun h => ha (List.mem_cons_of_mem _ h))]
    exact foldl_pairs_stable env a' s t a _
      (fun p _ => fun h => ha (h.1 ▸ List.mem_cons_self _ _)) mn0

theorem buildRun_lookup (env : Env) (hnd : env.studentFolders.Nodup)
    (hnda : env.assignments.Nodup) (s t a : String)
    (hp : (s, t) ∈ pairsOf env.studentFolders) (ha : a ∈ env.assignments) :
    (buildRun env).1 s t a = (cellFor env s t a).1 := by
  have hst : s ≠ t := pairsOf_ne hnd hp
  have hts : (t, s) ∉ pairsOf env.studentFolders := pairsOf_once hnd hp
  have hpsnd : (pairsOf env.studentFolders).Nodup := pairsOf_nodup hnd
  obtain ⟨as1, as2, heq⟩ := List.append_of_mem ha
  have hnas : a ∉ as1 ∧ a ∉ as2 := by
    rw [heq] at hnda
    constructor
    · intro hmem
      exact (List.disjoint_of_nodup_append hnda) hmem (List.mem_cons_self _ _)
    · exact (List.nodup_cons.mp (hnda.of_append_right)).1
  unfold buildRun
  rw [heq, List.foldl_append, List.foldl_cons]
  rw [foldl_assignments_stable env s t a as2 hnas.2]
  refine foldl_pairs_lookup env s t a hst _ hpsnd hts hp _ ?_
  exact foldl_assignments_stable env s t a as1 hnas.1 (emptyMat, 0)

theorem filterMap_score_nil (calcSim : String → String → Option ℚ)
    (f : String) (files2 : List String)
    (h : ∀ f2 ∈ files2, calcSim f f2 = none) :
    (files2.filterMap fun file2 =>
      (calcSim f file2).map fun sim =>
        ({ file1 := f, file2 := file2, similarity := sim } : FileComparison)) = [] := by
  induction files2 with
  | nil => rfl
  | cons g rest ih =>
    rw [List.filterMap_cons, h g (List.mem_cons_self _ _)]
    exact ih fun f2 h2 => h f2 (List.mem_cons_of_mem _ h2)

theorem scoreAll_nil (calcSim : String → String → Option ℚ)
    (files1 files2 : List String)
    (hfail : ∀ f1 ∈ files1, ∀ f2 ∈ files2, calcSim f1 f2 = none) :
    scoreAll calcSim files1 files2 = [] := by
  unfold scoreAll
  induction files1 with
  | nil => rfl
  | cons f rest ih =>
    rw [List.flatMap_cons,
      filterMap_score_nil calcSim f files2
        (fun f2 h2 => hfail f (List.mem_cons_self _ _) f2 h2),
      List.nil_append]
    exact ih fun f1 h1 f2 h2 => hfail f1 (List.mem_cons_of_mem _ h1) f2 h2

/-- The cell stored when both candidate lists are non-empty but every
individual scoring fails. -/
def emptyCell (a : String) : AssignmentComparison :=
  { assignmentName := a, fileComparisons := [], maxSimilarity := 0 }

theorem cellFor_all_failed (env : Env) (s t a : String)
    (files1 files2 : List String)
    (h1 : env.hasAssignment s a = true) (h2 : env.hasAssignment t a = true)
    (hf1 : env.findFiles s a = some files1) (hne1 : files1 ≠ [])
    (hf2 : env.findFiles t a = some files2) (hne2 : files2 ≠ [])
    (hfail : ∀ f1 ∈ files1, ∀ f2 ∈ files2, env.calcSim f1 f2 = none) :
    (cellFor env s t a).1 = some (emptyCell a) := by
  unfold cellFor
  rw [if_neg (by rw [h1]; simp), hf1]
  dsimp only
  rw [if_neg hne1, if_neg (by rw [h2]; simp), hf2]
  dsimp only
  rw [if_neg hne2]
  dsimp only
  rw [scoreAll_nil env.calcSim files1 files2 hfail]
  rfl

theorem flagStep_skip (results : Mat) (threshold : ℚ)
    (filterAssignment : Option String) (s t : String) (pair : StudentPair)
    (a' : String)
    (hskip : (match filterAssignment with
      | some fa => decide (a' ≠ fa)
      | none => false) = true) :
    flagStep results threshold filterAssignment s t pair a' = pair := by
  unfold flagStep
  rw [if_pos hskip]

theorem flagStep_none (results : Mat) (threshold : ℚ)
    (filterAssignment : Option String) (s t : String) (pair : StudentPair)
    (a' : String)
    (hskip : ¬(match filterAssignment with
      | some fa => decide (a' ≠ fa)
      | none => false) = true)
    (hr : results s t a' = none) :
    flagStep results threshold filterAssignment s t pair a' = pair := by
  unfold flagStep
  rw [if_neg hskip, hr]

theorem flagStep_some (results : Mat) (threshold : ℚ)
    (filterAssignment : Option String) (s t : String) (pair : StudentPair)
    (a' : String) (comp : AssignmentComparison)
    (hskip : ¬(match filterAssignment with
      | some fa => decide (a' ≠ fa)
      | none => false) = true)
    (hr : results s t a' = some comp) :
    flagStep results threshold filterAssignment s t pair a' =
      (if comp.maxSimilarity ≥ threshold then
        let fileComps := comp.fileComparisons.filterMap fun fc =>
          if fc.similarity ≥ threshold then
            some { file1 := fc.file1, file2 := fc.file2, similarity := fc.similarity }
          else none
        if fileComps = [] then pair
        else
          { pair with
            flaggedAssignments := pair.flaggedAssignments ++
              [{ name := a', maxSimilarity := comp.maxSimilarity,
                 fileComparisons := fileComps }]
            maxSimilarity :=
              if comp.maxSimilarity > pair.maxSimilarity then comp.maxSimilarity
              else pair.maxSimilarity }
      else pair) := by
  unfold flagStep
  rw [if_neg hskip, hr]

theorem flagStep_no_new_flag (results : Mat) (threshold : ℚ)
    (filterAssignment : Option String) (s t a : String)
    (hcell : results s t a = some (emptyCell a))
    (pair : StudentPair) (a' : String)
    (hinv : ∀ d ∈ pair.flaggedAssignments, d.name ≠ a) :
    ∀ d ∈ (flagStep results threshold filterAssignment s t pair a').flaggedAssignments,
      d.name ≠ a := by
  by_cases hskip : (match filterAssignment with
      | some fa => decide (a' ≠ fa)
      | none => false) = true
  · rw [flagStep_skip results threshold filterAssignment s t pair a' hskip]
    exact hinv
  · cases hr : results s t a' with
    | none =>
      rw [flagStep_none results threshold filterAssignment s t pair a' hskip hr]
      exact hinv
    | some comp =>
      rw [flagStep_some results threshold filterAssignment s t pair a' comp hskip hr]
      by_cases hth : comp.maxSimilarity ≥ threshold
      · rw [if_pos hth]
        dsimp only
        split
        · exact hinv
        · next hfc =>
          intro d hd
          dsimp only at hd
          rw [List.mem_append] at hd
          rcases hd with hd | hd
          · exact hinv d hd
          · rw [List.mem_singleton] at hd
            subst hd
            dsimp only
            intro he
            subst he
            rw [hr] at hcell
            injection hcell with hcell
            rw [hcell] at hfc
            exact hfc rfl
      · rw [if_neg hth]
        exact hinv

theorem buildPair_no_flag_of_empty (results : Mat) (assignments : List String)
    (threshold : ℚ) (filterAssignment : Option String) (s t a : String)
    (hcell : results s t a = some (emptyCell a)) :
    ∀ d ∈ (buildPair results assignments threshold filterAssignment s t).flaggedAssignments,
      d.name ≠ a := by
  unfold buildPair
  have main : ∀ (as' : List String) (pair : StudentPair),
      (∀ d ∈ pair.flaggedAssignments, d.name ≠ a) →
      ∀ d ∈ (as'.foldl (flagStep results threshold filterAssignment s t)
        pair).flaggedAssignments, d.name ≠ a := by
    intro as'
    induction as' with
    | nil => intro pair h; exact h
    | cons a' rest ih =>
      intro pair h
      exact ih _ (flagStep_no_new_flag results threshold filterAssignment
        s t a hcell pair a' h)
  exact main assignments (initPair s t) (by intro d hd; simp [initPair] at hd)

/-- C10: when both students have a non-empty candidate list but every
file-pair scoring fails, `CompareAssignments` still stores a cell whose
comparison list is empty and whose `MaxSimilarity` is `0`; such a cell is
never flagged by the report builder, because flagging requires at least one
stored comparison at or above threshold. -/
theorem compareAssignments_all_failed (env : Env)
    (hnd : env.studentFolders.Nodup) (hnda : env.assignments.Nodup)
    (s t a : String) (hp : (s, t) ∈ pairsOf env.studentFolders)
    (ha : a ∈ env.assignments) (files1 files2 : List String)
    (h1 : env.hasAssignment s a = true) (h2 : env.hasAssignment t a = true)
    (hf1 : env.findFiles s a = some files1) (hne1 : files1 ≠ [])
    (hf2 : env.findFiles t a = some files2) (hne2 : files2 ≠ [])
    (hfail : ∀ f1 ∈ files1, ∀ f2 ∈ files2, env.calcSim f1 f2 = none)
    (m : Mat) (as : List String) (k : Nat)
    (hok : CompareAssignments env = (Except.ok (m, as), k)) :
    m s t a = some (emptyCell a) ∧
    ∀ (threshold : ℚ) (filterAssignment : Option String),
      ∀ d ∈ (buildPair m env.assignments threshold filterAssignment
        s t).flaggedAssignments, d.name ≠ a := by
  have hm : m = (buildRun env).1 := by
    unfold CompareAssignments at hok
    by_cases h : env.studentFolders.length < 2
    · rw [if_pos h] at hok
      exact absurd (congrArg Prod.fst hok) (by simp)
    · rw [if_neg h] at hok
      have := congrArg Prod.fst hok
      simp only at this
      injection this with this
      injection this with hfst hsnd
      exact hfst.symm
  subst hm
  have hcell : (buildRun env).1 s t a = some (emptyCell a) := by
    rw [buildRun_lookup env hnd hnda s t a hp ha]
    exact cellFor_all_failed env s t a files1 files2 h1 h2 hf1 hne1 hf2 hne2 hfail
  exact ⟨hcell, fun threshold filterAssignment =>
    buildPair_no_flag_of_empty _ _ threshold filterAssignment s t a hcell⟩

/-- A discovery result where the single pair's only scoring fails. -/
def envFailW : Env :=
  { studentFolders := ["u", "v"]
    assignments := ["a1"]
    hasAssignment := fun _ _ => true
    findFiles := fun s _ => some [s ++ "/f.html"]
    calcSim := fun _ _ => none }

theorem compareAssignments_all_failed_witness :
    (buildRun envFailW).1 "u" "v" "a1" = some (emptyCell "a1") ∧
    (buildPair (buildRun envFailW).1 envFailW.assignments 70 none
      "u" "v").flaggedAssignments = [] := by
  have h := compareAssignments_all_failed envFailW (by decide) (by decide)
    "u" "v" "a1" (by decide) (by decide) ["u/f.html"] ["v/f.html"]
    (by decide) (by decide) (by decide) (by decide) (by decide) (by decide)
    (by decide) (buildRun envFailW).1 envFailW.assignments
    (buildRun envFailW).2 rfl
  exact ⟨h.1, by decide⟩

/-! ### Claim C4: flagging conditions and output membership -/

/-- The soundness predicate for a flagged assignment of the pair `(s, t)`. -/
def FlagSound (results : Mat) (threshold : ℚ) (s t : String)
    (d : AssignmentDetail) : Prop :=
  ∃ comp, results s t d.name = some comp ∧
    comp.maxSimilarity ≥ threshold ∧
    d.maxSimilarity = comp.maxSimilarity ∧
    ∃ fc ∈ comp.fileComparisons, fc.similarity ≥ threshold

theorem flagStep_flag_sound (results : Mat) (threshold : ℚ)
    (filterAssignment : Option String) (s t : String) (pair : StudentPair)
    (a' : String)
    (hinv : ∀ d ∈ pair.flaggedAssignments, FlagSound results threshold s t d) :
    ∀ d ∈ (flagStep results threshold filterAssignment s t pair a').flaggedAssignments,
      FlagSound results threshold s t d := by
  by_cases hskip : (match filterAssignment with
      | some fa => decide (a' ≠ fa)
      | none => false) = true
  · rw [flagStep_skip results threshold filterAssignment s t pair a' hskip]
    exact hinv
  · cases hr : results s t a' with
    | none =>
      rw [flagStep_none results threshold filterAssignment s t pair a' hskip hr]
      exact hinv
    | some comp =>
      rw [flagStep_some results threshold filterAssignment s t pair a' comp hskip hr]
      by_cases hth : comp.maxSimilarity ≥ threshold
      · rw [if_pos hth]
        dsimp only
        split
        · exact hinv
        · next hfc =>
          intro d hd
          dsimp only at hd
          rw [List.mem_append] at hd
          rcases hd with hd | hd
          · exact hinv d hd
          · rw [List.mem_singleton] at hd
            subst hd
            refine ⟨comp, hr, hth, rfl, ?_⟩
            rw [List.filterMap_eq_nil_iff] at hfc
            push_neg at hfc
            obtain ⟨fc, hfcmem, hfcsome⟩ := hfc
            refine ⟨fc, hfcmem, ?_⟩
            by_cases hsim : fc.similarity ≥ threshold
            · exact hsim
            · rw [if_neg hsim] at hfcsome
              exact absurd rfl hfcsome
      · rw [if_neg hth]
        exact hinv

theorem flagStep_students (results : Mat) (threshold : ℚ)
    (filterAssignment : Option String) (s t : String) (pair : StudentPair)
    (a' : String) :
    (flagStep results threshold filterAssignment s t pair a').student1 =
      pair.student1 ∧
    (flagStep results threshold filterAssignment s t pair a').student2 =
      pair.student2 := by
  simp only [flagStep]
  repeat' split <;> try exact ⟨rfl, rfl⟩

theorem buildPair_sound (results : Mat) (assignments : List String)
    (threshold : ℚ) (filterAssignment : Option String) (s t : String) :
    (buildPair results assignments threshold filterAssignment s t).student1 = s ∧
    (buildPair results assignments threshold filterAssignment s t).student2 = t ∧
    ∀ d ∈ (buildPair results assignments threshold filterAssignment
      s t).flaggedAssignments, FlagSound results threshold s t d := by
  unfold buildPair
  have main : ∀ (as' : List String) (pair : StudentPair),
      (∀ d ∈ pair.flaggedAssignments, FlagSound results threshold s t d) →
      (as'.foldl (flagStep results threshold filterAssignment s t) pair).student1 =
        pair.student1 ∧
      (as'.foldl (flagStep results threshold filterAssignment s t) pair).student2 =
        pair.student2 ∧
      ∀ d ∈ (as'.foldl (flagStep results threshold filterAssignment s t)
        pair).flaggedAssignments, FlagSound results threshold s t d := by
    intro as'
    induction as' with
    | nil => intro pair h; exact ⟨rfl, rfl, h⟩
    | cons a' rest ih =>
      intro pair h
      obtain ⟨e1, e2, hs⟩ := ih (flagStep results threshold filterAssignment s t pair a')
        (flagStep_flag_sound results threshold filterAssignment s t pair a' h)
      obtain ⟨f1, f2⟩ := flagStep_students results threshold filterAssignment s t pair a'
      exact ⟨e1.trans f1, e2.trans f2, hs⟩
  exact main assignments (initPair s t) (by intro d hd; simp [initPair] at hd)

theorem insertPair_perm (x : StudentPair) (l : List StudentPair) :
    (insertPair x l).Perm (x :: l) := by
  induction l with
  | nil => exact List.Perm.refl _
  | cons y ys ih =>
    unfold insertPair
    by_cases h : pairLess x y
    · rw [if_pos h]
    · rw [if_neg h]
      exact (List.Perm.cons y ih).trans (List.Perm.swap x y ys)

theorem sortPairs_perm (l : List StudentPair) : (sortPairs l).Perm l := by
  induction l with
  | nil => exact List.Perm.refl _
  | cons x xs ih =>
    unfold sortPairs at ih ⊢
    rw [List.foldr_cons]
    exact (insertPair_perm x _).trans (List.Perm.cons x ih)

theorem mem_qualifyingPairs (students : List String) (results : Mat)
    (assignments : List String) (threshold : ℚ)
    (filterStudent filterAssignment : Option String) (p : StudentPair)
    (hp : p ∈ qualifyingPairs students results assignments threshold
      filterStudent filterAssignment) :
    (∃ q ∈ pairsOf students,
      p = buildPair results assignments threshold filterAssignment q.1 q.2) ∧
    p.flaggedAssignments ≠ [] ∧ studentFilterOk filterStudent p := by
  unfold qualifyingPairs at hp
  rw [List.mem_filterMap] at hp
  obtain ⟨q, hq, hsome⟩ := hp
  by_cases hcond : (buildPair results assignments threshold filterAssignment
      q.1 q.2).flaggedAssignments ≠ [] ∧
      studentFilterOk filterStudent
        (buildPair results assignments threshold filterAssignment q.1 q.2)
  · rw [if_pos hcond] at hsome
    injection hsome with hsome
    subst hsome
    exact ⟨⟨q, hq, rfl⟩, hcond⟩
  · rw [if_neg hcond] at hsome
    exact Option.noConfusion hsome

/-- C4: a student pair appears in the report output only if it has at least
one qualifying assignment and passes the optional single-student filter, and
every assignment in a pair's summary is backed by a stored cell with
`MaxSimilarity ≥ threshold` and at least one individual comparison at or
above the threshold.  The output is the sorted extraction of the pair map,
whose iteration order is an arbitrary permutation `order`. -/
theorem report_flagging_sound (students : List String) (results : Mat)
    (assignments : List String) (threshold : ℚ)
    (filterStudent filterAssignment : Option String)
    (order : List StudentPair)
    (hord : order.Perm (qualifyingPairs students results assignments threshold
      filterStudent filterAssignment)) :
    ∀ p ∈ sortPairs order,
      p.flaggedAssignments ≠ [] ∧
      (∀ u, filterStudent = some u → p.student1 = u ∨ p.student2 = u) ∧
      ∀ d ∈ p.flaggedAssignments,
        ∃ comp, results p.student1 p.student2 d.name = some comp ∧
          comp.maxSimilarity ≥ threshold ∧
          d.maxSimilarity = comp.maxSimilarity ∧
          ∃ fc ∈ comp.fileComparisons, fc.similarity ≥ threshold := by
  intro p hp
  have hmem : p ∈ qualifyingPairs students results assignments threshold
      filterStudent filterAssignment :=
    hord.mem_iff.mp ((sortPairs_perm order).mem_iff.mp hp)
  obtain ⟨⟨q, hq, hpq⟩, hne, hfilter⟩ := mem_qualifyingPairs students results
    assignments threshold filterStudent filterAssignment p hmem
  refine ⟨hne, ?_, ?_⟩
  · intro u hu
    unfold studentFilterOk at hfilter
    rw [hu] at hfilter
    exact hfilter
  · obtain ⟨e1, e2, hsound⟩ := buildPair_sound results assignments threshold
      filterAssignment q.1 q.2
    intro d hd
    have := hsound d (by rw [← hpq] at *; exact hd)
    rw [hpq, e1, e2]
    exact this

/-- The summary the report builder produces for the pair of `envPairW` at
threshold `40`. -/
def pairW4 : StudentPair :=
  buildPair (buildRun envPairW).1 ["a1"] 40 none "s1" "s2"

theorem report_flagging_sound_witness :
    pairW4 ∈ sortPairs (qualifyingPairs ["s1", "s2"] (buildRun envPairW).1
      ["a1"] 40 none none) ∧
    pairW4.flaggedAssignments ≠ [] :=
  ⟨by decide,
   (report_flagging_sound ["s1", "s2"] (buildRun envPairW).1 ["a1"] 40 none none
      (qualifyingPairs ["s1", "s2"] (buildRun envPairW).1 ["a1"] 40 none none)
      (List.Perm.refl _) pairW4 (by decide)).1⟩

/-! ### Claim C5: ranking order and (non-)determinism -/

/-- The ordering the spec describes: flagged-assignment count descending,
maximum similarity descending as tie-break. -/
def rankedBefore (p q : StudentPair) : Prop :=
  q.flaggedAssignments.length < p.flaggedAssignments.length ∨
  (p.flaggedAssignments.length = q.flaggedAssignments.length ∧
    q.maxSimilarity ≤ p.maxSimilarity)

/-- Two summaries that do not tie on both sort keys. -/
def PairDistinct (p q : StudentPair) : Prop :=
  ¬(p.flaggedAssignments.length = q.flaggedAssignments.length ∧
    p.maxSimilarity = q.maxSimilarity)

instance : DecidableRel PairDistinct := fun p q => by
  unfold PairDistinct
  infer_instance

theorem pairLess_asymm (a b : StudentPair) (h : pairLess a b = true) :
    pairLess b a = false := by
  unfold pairLess at h ⊢
  by_cases h1 : a.flaggedAssignments.length = b.flaggedAssignments.length
  · rw [if_neg (by omega)] at h
    rw [if_neg (by omega)]
    rw [decide_eq_true_eq] at h
    rw [decide_eq_false_iff_not]
    exact lt_asymm h
  · rw [if_pos h1] at h
    rw [if_pos (Ne.symm h1)]
    rw [decide_eq_true_eq] at h
    rw [decide_eq_false_iff_not]
    omega

theorem pairLess_trans (a b c : StudentPair) (h1 : pairLess a b = true)
    (h2 : pairLess b c = true) : pairLess a c = true := by
  unfold pairLess at h1 h2 ⊢
  by_cases e1 : a.flaggedAssignments.length = b.flaggedAssignments.length
  · rw [if_neg (by omega), decide_eq_true_eq] at h1
    by_cases e2 : b.flaggedAssignments.length = c.flaggedAssignments.length
    · rw [if_neg (by omega), decide_eq_true_eq] at h2
      rw [if_neg (by omega), decide_eq_true_eq]
      exact lt_trans h2 h1
    · rw [if_pos e2, decide_eq_true_eq] at h2
      rw [if_pos (by omega), decide_eq_true_eq]
      omega
  · rw [if_pos e1, decide_eq_true_eq] at h1
    by_cases e2 : b.flaggedAssignments.length = c.flaggedAssignments.length
    · rw [if_pos (by omega), decide_eq_true_eq]
      omega
    · rw [if_pos e2, decide_eq_true_eq] at h2
      rw [if_pos (by omega), decide_eq_true_eq]
      omega

theorem pairLess_keys_eq (a b : StudentPair) (h1 : pairLess a b = false)
    (h2 : pairLess b a = false) :
    a.flaggedAssignments.length = b.flaggedAssignments.length ∧
      a.maxSimilarity = b.maxSimilarity := by
  unfold pairLess at h1 h2
  by_cases e : a.flaggedAssignments.length = b.flaggedAssignments.length
  · refine ⟨e, ?_⟩
    rw [if_neg (by omega), decide_eq_false_iff_not] at h1
    rw [if_neg (by omega), decide_eq_false_iff_not] at h2
    exact le_antisymm (not_lt.mp h1) (not_lt.mp h2)
  · exfalso
    rw [if_pos e, decide_eq_false_iff_not] at h1
    rw [if_pos (Ne.symm e), decide_eq_false_iff_not] at h2
    omega

theorem pairLess_false_iff (p q : StudentPair) :
    pairLess q p = false ↔ rankedBefore p q := by
  unfold pairLess rankedBefore
  by_cases e : q.flaggedAssignments.length = p.flaggedAssignments.length
  · rw [if_neg (by omega), decide_eq_false_iff_not]
    constructor
    · intro h
      exact Or.inr ⟨e.symm, not_lt.mp h⟩
    · rintro (h | ⟨-, h⟩)
      · omega
      · exact not_lt.mpr h
  · rw [if_pos e, decide_eq_false_iff_not]
    constructor
    · intro h
      exact Or.inl (by omega)
    · rintro (h | ⟨h, -⟩)
      · omega
      · omega

theorem mem_insertPair {x y : StudentPair} {l : List StudentPair}
    (h : y ∈ insertPair x l) : y = x ∨ y ∈ l := by
  rcases List.mem_cons.mp ((insertPair_perm x l).mem_iff.mp h) with h | h
  · exact Or.inl h
  · exact Or.inr h

theorem insertPair_pairwise (x : StudentPair) (l : List StudentPair)
    (hl : List.Pairwise (fun p q => pairLess q p = false) l) :
    List.Pairwise (fun p q => pairLess q p = false) (insertPair x l) := by
  induction l with
  | nil => exact List.pairwise_singleton _ _
  | cons y ys ih =>
    obtain ⟨hy, hys⟩ := List.pairwise_cons.mp hl
    unfold insertPair
    by_cases h : pairLess x y
    · rw [if_pos h]
      refine List.pairwise_cons.mpr ⟨?_, hl⟩
      intro z hz
      rcases List.mem_cons.mp hz with rfl | hz
      · exact pairLess_asymm x z h
      · cases hless : pairLess z x with
        | false => rfl
        | true =>
          have := pairLess_trans z x y hless h
          rw [hy z hz] at this
          exact this.symm
    · rw [if_neg h]
      refine List.pairwise_cons.mpr ⟨?_, ih hys⟩
      intro z hz
      rcases mem_insertPair hz with rfl | hz
      · exact Bool.not_eq_true _ ▸ (by simpa using h)
      · exact hy z hz

theorem sortPairs_sorted (l : List StudentPair) :
    List.Pairwise (fun p q => pairLess q p = false) (sortPairs l) := by
  induction l with
  | nil => exact List.Pairwise.nil
  | cons x xs ih =>
    unfold sortPairs at ih ⊢
    rw [List.foldr_cons]
    exact insertPair_pairwise x _ ih

theorem sorted_noties_unique (l1 : List StudentPair) :
    ∀ l2 : List StudentPair, l1.Perm l2 →
    List.Pairwise (fun p q => pairLess q p = false) l1 →
    List.Pairwise (fun p q => pairLess q p = false) l2 →
    List.Pairwise PairDistinct l1 →
    l1 = l2 := by
  induction l1 with
  | nil =>
    intro l2 hperm _ _ _
    exact (hperm.symm.eq_nil).symm
  | cons a t1 ih =>
    intro l2 hperm hs1 hs2 hd1
    cases l2 with
    | nil => exact absurd hperm.eq_nil (by simp)
    | cons b t2 =>
      by_cases hab : a = b
      · subst hab
        have hperm' := hperm.cons_inv
        rw [ih t2 hperm' (List.pairwise_cons.mp hs1).2
          (List.pairwise_cons.mp hs2).2 (List.pairwise_cons.mp hd1).2]
      · exfalso
        have hbmem : b ∈ t1 := by
          rcases List.mem_cons.mp (hperm.mem_iff.mpr (List.mem_cons_self b t2)) with
            h | h
          · exact absurd h.symm hab
          · exact h
        have hamem : a ∈ t2 := by
          rcases List.mem_cons.mp (hperm.mem_iff.mp (List.mem_cons_self a t1)) with
            h | h
          · exact absurd h hab
          · exact h
        have h1 : pairLess b a = false := (List.pairwise_cons.mp hs1).1 b hbmem
        have h2 : pairLess a b = false := (List.pairwise_cons.mp hs2).1 a hamem
        exact (List.pairwise_cons.mp hd1).1 b hbmem (pairLess_keys_eq a b h2 h1)

/-- The cell shared by the two tied pairs in the C5 counterexample. -/
def tieCell : AssignmentComparison :=
  { assignmentName := "a1"
    fileComparisons := [{ file1 := "f1", file2 := "f2", similarity := 80 }]
    maxSimilarity := 80 }

/-- A matrix with two distinct student pairs that tie on both sort keys. -/
def matTie : Mat := fun s t a =>
  if a = "a1" ∧ ((s = "a" ∧ t = "b") ∨ (s = "b" ∧ t = "a") ∨
      (s = "c" ∧ t = "d") ∨ (s = "d" ∧ t = "c")) then some tieCell
  else none

/-- The two tied summaries of `matTie`. -/
def tiedPair1 : StudentPair := buildPair matTie ["a1"] 70 none "a" "b"

/-- See `tiedPair1`. -/
def tiedPair2 : StudentPair := buildPair matTie ["a1"] 70 none "c" "d"

/-- C5 counterexample: the pair map of `matTie` holds two summaries tying on
both sort keys; two legitimate extraction orders of that map (Go randomizes
map iteration order) sort to different output sequences, so the emitted
ranking is not a function of matrix, threshold and filters alone. -/
theorem report_ranking_counterexample :
    ([tiedPair1, tiedPair2] : List StudentPair).Perm
      (qualifyingPairs ["a", "b", "c", "d"] matTie ["a1"] 70 none none) ∧
    ([tiedPair2, tiedPair1] : List StudentPair).Perm
      (qualifyingPairs ["a", "b", "c", "d"] matTie ["a1"] 70 none none) ∧
    sortPairs [tiedPair1, tiedPair2] ≠ sortPairs [tiedPair2, tiedPair1] := by
  refine ⟨by decide, by decide, by decide⟩

/-- C5 amended: for a fixed matrix, threshold and filters, the emitted
sequence is always a permutation of the qualifying pair map sorted by
flagged-assignment count descending with maximum similarity descending as
tie-break; the sequence is identical across runs whenever no two qualifying
summaries tie on both sort keys (with ties, the relative order depends on
the randomized map iteration order). -/
theorem report_ranking_sorted (students : List String) (results : Mat)
    (assignments : List String) (threshold : ℚ) (fs fa : Option String)
    (order1 order2 : List StudentPair)
    (h1 : order1.Perm (qualifyingPairs students results assignments threshold fs fa))
    (h2 : order2.Perm (qualifyingPairs students results assignments threshold fs fa)) :
    (sortPairs order1).Perm
      (qualifyingPairs students results assignments threshold fs fa) ∧
    List.Pairwise rankedBefore (sortPairs order1) ∧
    (List.Pairwise PairDistinct
        (qualifyingPairs students results assignments threshold fs fa) →
      sortPairs order1 = sortPairs order2) := by
  refine ⟨(sortPairs_perm order1).trans h1, ?_, ?_⟩
  · exact (sortPairs_sorted order1).imp fun {p q} h => (pairLess_false_iff p q).mp h
  · intro hnt
    have hperm12 : (sortPairs order1).Perm (sortPairs order2) :=
      ((sortPairs_perm order1).trans (h1.trans h2.symm)).trans
        (sortPairs_perm order2).symm
    have hsym : Symmetric PairDistinct := by
      intro p q h hk
      exact h ⟨hk.1.symm, hk.2.symm⟩
    refine sorted_noties_unique _ _ hperm12 (sortPairs_sorted order1)
      (sortPairs_sorted order2) ?_
    exact (List.Perm.pairwise_iff (fun h hk => h ⟨hk.1.symm, hk.2.symm⟩)
      ((sortPairs_perm order1).trans h1)).mpr hnt

/-- The qualifying summaries of `envPairW` at threshold `40`. -/
def q40 : List StudentPair :=
  qualifyingPairs ["s1", "s2"] (buildRun envPairW).1 ["a1"] 40 none none

theorem report_ranking_sorted_witness :
    (sortPairs q40).Perm q40 ∧
    List.Pairwise rankedBefore (sortPairs q40) ∧
    sortPairs q40 = sortPairs q40 :=
  have h := report_ranking_sorted ["s1", "s2"] (buildRun envPairW).1 ["a1"]
    40 none none q40 q40 (List.Perm.refl _) (List.Perm.refl _)
  ⟨h.1, h.2.1, h.2.2 (by decide)⟩

/-! ### String toolkit for the normalizer claims -/

/-- Occurrence of the two-character pattern `x, y` at adjacent positions. -/
def contains2 (l : List Char) (x y : Char) : Prop :=
  ∃ i : Nat, l[i]? = some x ∧ l[i + 1]? = some y

theorem preTrans {a b c : List Char} (h1 : a <+: b) (h2 : b <+: c) :
    a <+: c := by
  obtain ⟨u, rfl⟩ := h1
  obtain ⟨v, rfl⟩ := h2
  exact ⟨u ++ v, (List.append_assoc a u v).symm⟩

theorem preOfTake (l : List Char) (n : Nat) : l.take n <+: l :=
  ⟨l.drop n, List.take_append_drop n l⟩

theorem trimLeft_eq_drop (l : List Char) : ∃ k, trimLeft l = l.drop k := by
  induction l with
  | nil => exact ⟨0, rfl⟩
  | cons c t ih =>
    by_cases h : isSpace c
    · obtain ⟨k, hk⟩ := ih
      refine ⟨k + 1, ?_⟩
      unfold trimLeft at hk ⊢
      rw [List.dropWhile_cons, if_pos h]
      exact hk
    · refine ⟨0, ?_⟩
      unfold trimLeft
      rw [List.dropWhile_cons, if_neg h]
      rfl

theorem trimLeft_cons_nonspace {c : Char} (t : List Char)
    (h : isSpace c = false) : trimLeft (c :: t) = c :: t := by
  unfold trimLeft
  rw [List.dropWhile_cons, if_neg (by simp [h])]

theorem trimRight_cons (c : Char) (t : List Char) :
    trimRight (c :: t) = (match trimRight t with
      | [] => if isSpace c then [] else [c]
      | r => c :: r) := rfl

theorem trimRight_eq_take (l : List Char) : ∃ k, trimRight l = l.take k := by
  induction l with
  | nil => exact ⟨0, rfl⟩
  | cons c t ih =>
    obtain ⟨k, hk⟩ := ih
    rw [trimRight_cons]
    cases htr : trimRight t with
    | nil =>
      by_cases h : isSpace c
      · exact ⟨0, by simp [h]⟩
      · exact ⟨1, by simp [h]⟩
    | cons r0 rt =>
      refine ⟨k + 1, ?_⟩
      simp only [List.take_succ_cons]
      rw [← htr, hk]

theorem trimRight_cons_eq_cons {c : Char} {t r : List Char}
    (h : trimRight t = r) (hne : r ≠ []) : trimRight (c :: t) = c :: r := by
  rw [trimRight_cons, h]
  cases r with
  | nil => exact absurd rfl hne
  | cons r0 rt => rfl

theorem trimRight_nonspace_head {c : Char} (t : List Char)
    (h : isSpace c = false) :
    ∃ r, trimRight (c :: t) = c :: r := by
  rw [trimRight_cons]
  cases trimRight t with
  | nil => exact ⟨[], by simp [h]⟩
  | cons r0 rt => exact ⟨r0 :: rt, rfl⟩

theorem trimSpace_cons_nonspace {c : Char} (t : List Char)
    (h : isSpace c = false) :
    ∃ r, trimSpace (c :: t) = c :: r := by
  unfold trimSpace
  rw [trimLeft_cons_nonspace t h]
  exact trimRight_nonspace_head t h

/-- `trimSpace` of any list is `(l.drop j).take k` for some `j`, `k`; in
particular it is an infix, so pattern absences transfer. -/
theorem trimSpace_rep (l : List Char) :
    ∃ j k, trimSpace l = (l.drop j).take k := by
  obtain ⟨j, hj⟩ := trimLeft_eq_drop l
  obtain ⟨k, hk⟩ := trimRight_eq_take (trimLeft l)
  exact ⟨j, k, by rw [trimSpace, hk, hj]⟩

theorem dropWhile_head_false (p : Char → Bool) (l : List Char) (c : Char)
    (t : List Char) (h : l.dropWhile p = c :: t) : p c = false := by
  induction l with
  | nil => simp at h
  | cons a l' ih =>
    rw [List.dropWhile_cons] at h
    by_cases hp : p a
    · rw [if_pos hp] at h
      exact ih h
    · rw [if_neg hp] at h
      injection h with h1 _
      cases hb : p a with
      | false => rw [← h1]; exact hb
      | true => exact absurd hb hp

theorem trimSpace_head_nonspace (l : List Char) (h : trimSpace l ≠ []) :
    ∃ c t, trimSpace l = c :: t ∧ isSpace c = false := by
  unfold trimSpace at h ⊢
  cases hl : trimLeft l with
  | nil => rw [hl] at h; exact absurd rfl h
  | cons c t =>
    have hc : isSpace c = false := dropWhile_head_false isSpace l c t hl
    obtain ⟨r, hr⟩ := trimRight_nonspace_head t hc
    exact ⟨c, r, hr, hc⟩

theorem getElem?_some_lt {l : List Char} {i : Nat} {a : Char}
    (h : l[i]? = some a) : i < l.length :=
  (List.getElem?_eq_some_iff.mp h).1

theorem c2_of_drop {l : List Char} {n : Nat} {x y : Char}
    (h : contains2 (l.drop n) x y) : contains2 l x y := by
  obtain ⟨i, h1, h2⟩ := h
  rw [List.getElem?_drop] at h1 h2
  have e : n + (i + 1) = n + i + 1 := by omega
  rw [e] at h2
  exact ⟨n + i, h1, h2⟩

theorem c2_of_take_pos {l : List Char} {n : Nat} {x y : Char}
    (h : contains2 (l.take n) x y) :
    ∃ i, i + 1 < n ∧ l[i]? = some x ∧ l[i + 1]? = some y := by
  obtain ⟨i, h1, h2⟩ := h
  rw [List.getElem?_take] at h1 h2
  by_cases hi1 : i + 1 < n
  · rw [if_pos hi1] at h2
    rw [if_pos (by omega)] at h1
    exact ⟨i, hi1, h1, h2⟩
  · rw [if_neg hi1] at h2
    exact Option.noConfusion h2

theorem c2_of_take {l : List Char} {n : Nat} {x y : Char}
    (h : contains2 (l.take n) x y) : contains2 l x y := by
  obtain ⟨i, _, h1, h2⟩ := c2_of_take_pos h
  exact ⟨i, h1, h2⟩

theorem c2_of_trimSpace {l : List Char} {x y : Char}
    (h : contains2 (trimSpace l) x y) : contains2 l x y := by
  obtain ⟨j, k, he⟩ := trimSpace_rep l
  rw [he] at h
  exact c2_of_drop (c2_of_take h)

theorem c2_append_elim {u v : List Char} {x y : Char}
    (h : contains2 (u ++ v) x y) :
    contains2 u x y ∨ contains2 v x y ∨
      (∃ i, i + 1 = u.length ∧ u[i]? = some x ∧ v[0]? = some y) := by
  obtain ⟨i, h1, h2⟩ := h
  rw [List.getElem?_append] at h1 h2
  by_cases hi : i < u.length
  · rw [if_pos hi] at h1
    by_cases hi1 : i + 1 < u.length
    · rw [if_pos hi1] at h2
      exact Or.inl ⟨i, h1, h2⟩
    · rw [if_neg hi1] at h2
      have e0 : i + 1 - u.length = 0 := by omega
      rw [e0] at h2
      exact Or.inr (Or.inr ⟨i, by omega, h1, h2⟩)
  · rw [if_neg hi] at h1
    rw [if_neg (by omega)] at h2
    have e : i + 1 - u.length = (i - u.length) + 1 := by omega
    rw [e] at h2
    exact Or.inr (Or.inl ⟨i - u.length, h1, h2⟩)

theorem c2_append_left {u v : List Char} {x y : Char}
    (h : contains2 u x y) : contains2 (u ++ v) x y := by
  obtain ⟨i, h1, h2⟩ := h
  refine ⟨i, ?_, ?_⟩ <;> rw [List.getElem?_append]
  · rw [if_pos (getElem?_some_lt h1)]
    exact h1
  · rw [if_pos (getElem?_some_lt h2)]
    exact h2

theorem c2_append_right {u v : List Char} {x y : Char}
    (h : contains2 v x y) : contains2 (u ++ v) x y := by
  obtain ⟨i, h1, h2⟩ := h
  refine ⟨u.length + i, ?_, ?_⟩ <;> rw [List.getElem?_append]
  · rw [if_neg (by omega)]
    have e : u.length + i - u.length = i := by omega
    rw [e]
    exact h1
  · rw [if_neg (by omega)]
    have e : u.length + i + 1 - u.length = i + 1 := by omega
    rw [e]
    exact h2

theorem c2_cons_tail {c : Char} {t : List Char} {x y : Char}
    (h : contains2 t x y) : contains2 (c :: t) x y := by
  obtain ⟨i, h1, h2⟩ := h
  exact ⟨i + 1, by rw [List.getElem?_cons_succ]; exact h1,
    by rw [List.getElem?_cons_succ]; exact h2⟩

theorem c2_cons_elim {c : Char} {t : List Char} {x y : Char}
    (h : contains2 (c :: t) x y) :
    (c = x ∧ t[0]? = some y) ∨ contains2 t x y := by
  obtain ⟨i, h1, h2⟩ := h
  cases i with
  | zero =>
    rw [List.getElem?_cons_zero] at h1
    injection h1 with h1
    rw [List.getElem?_cons_succ] at h2
    exact Or.inl ⟨h1, h2⟩
  | succ i =>
    rw [List.getElem?_cons_succ] at h1 h2
    exact Or.inr ⟨i, h1, h2⟩

theorem isPre_pair {x y : Char} (m : List Char) :
    [x, y].isPrefixOf m = true ↔ m[0]? = some x ∧ m[1]? = some y := by
  cases m with
  | nil =>
    rw [show ([x, y].isPrefixOf ([] : List Char)) = false from rfl]
    simp
  | cons a t =>
    cases t with
    | nil =>
      simp only [List.isPrefixOf_cons₂,
        show ([y].isPrefixOf ([] : List Char)) = false from rfl]
      simp
    | cons b t2 =>
      simp only [List.isPrefixOf_cons₂, List.isPrefixOf_nil_left,
        Bool.and_eq_true, beq_iff_eq, and_true, List.getElem?_cons_zero,
        List.getElem?_cons_succ, Option.some_inj]
      constructor
      · rintro ⟨h1, h2⟩
        exact ⟨h1.symm, h2.symm⟩
      · rintro ⟨h1, h2⟩
        exact ⟨h1.symm, h2.symm⟩

theorem isPre_single {x : Char} (m : List Char) :
    [x].isPrefixOf m = true ↔ m[0]? = some x := by
  cases m with
  | nil =>
    rw [show ([x].isPrefixOf ([] : List Char)) = false from rfl]
    simp
  | cons a t =>
    simp only [List.isPrefixOf_cons₂, List.isPrefixOf_nil_left,
      Bool.and_eq_true, beq_iff_eq, and_true, List.getElem?_cons_zero,
      Option.some_inj]
    constructor
    · intro h
      exact h.symm
    · intro h
      exact h.symm

theorem indexOfSub_none_iff (l sub : List Char) :
    indexOfSub l sub = none ↔ ∀ i, sub.isPrefixOf (l.drop i) = false := by
  induction l with
  | nil =>
    simp only [indexOfSub]
    by_cases hp : sub.isPrefixOf []
    · rw [if_pos hp]
      constructor
      · intro h
        exact Option.noConfusion h
      · intro h
        have := h 0
        rw [List.drop_nil] at this
        rw [this] at hp
        exact Bool.noConfusion hp
    · rw [if_neg hp]
      constructor
      · intro _ i
        rw [List.drop_nil]
        exact Bool.eq_false_iff.mpr hp
      · intro _
        rfl
  | cons c t ih =>
    simp only [indexOfSub]
    by_cases hp : sub.isPrefixOf (c :: t)
    · rw [if_pos hp]
      constructor
      · intro h
        exact Option.noConfusion h
      · intro h
        have := h 0
        rw [List.drop_zero] at this
        rw [this] at hp
        exact Bool.noConfusion hp
    · rw [if_neg hp]
      rw [Option.map_eq_none', ih]
      constructor
      · intro h i
        cases i with
        | zero =>
          rw [List.drop_zero]
          exact Bool.eq_false_iff.mpr hp
        | succ i => exact h i
      · intro h i
        exact h (i + 1)

theorem indexOfSub_some_at (l sub : List Char) (idx : Nat)
    (h : indexOfSub l sub = some idx) : sub.isPrefixOf (l.drop idx) = true := by
  induction l generalizing idx with
  | nil =>
    simp only [indexOfSub] at h
    by_cases hp : sub.isPrefixOf ([] : List Char)
    · rw [if_pos hp] at h
      injection h with h
      subst h
      rw [List.drop_nil]
      exact hp
    · rw [if_neg hp] at h
      exact Option.noConfusion h
  | cons c t ih =>
    simp only [indexOfSub] at h
    by_cases hp : sub.isPrefixOf (c :: t)
    · rw [if_pos hp] at h
      injection h with h
      subst h
      rw [List.drop_zero]
      exact hp
    · rw [if_neg hp] at h
      cases hio : indexOfSub t sub with
      | none =>
        rw [hio] at h
        exact Option.noConfusion h
      | some j =>
        rw [hio] at h
        simp only [Option.map_some'] at h
        injection h with h
        subst h
        exact ih j hio
  
theorem indexOfSub_some_min (l sub : List Char) (idx : Nat)
    (h : indexOfSub l sub = some idx) :
    ∀ j, j < idx → sub.isPrefixOf (l.drop j) = false := by
  induction l generalizing idx with
  | nil =>
    simp only [indexOfSub] at h
    by_cases hp : sub.isPrefixOf ([] : List Char)
    · rw [if_pos hp] at h
      injection h with h
      subst h
      intro j hj
      exact absurd hj (by omega)
    · rw [if_neg hp] at h
      exact Option.noConfusion h
  | cons c t ih =>
    simp only [indexOfSub] at h
    by_cases hp : sub.isPrefixOf (c :: t)
    · rw [if_pos hp] at h
      injection h with h
      subst h
      intro j hj
      exact absurd hj (by omega)
    · rw [if_neg hp] at h
      cases hio : indexOfSub t sub with
      | none =>
        rw [hio] at h
        exact Option.noConfusion h
      | some k =>
        rw [hio] at h
        simp only [Option.map_some'] at h
        injection h with h
        subst h
        intro j hj
        cases j with
        | zero =>
          rw [List.drop_zero]
          exact Bool.eq_false_iff.mpr hp
        | succ j' => exact ih k hio j' (by omega)

theorem drop_getElem_zero (l : List Char) (i : Nat) : (l.drop i)[0]? = l[i]? := by
  rw [List.getElem?_drop]
  norm_num

theorem drop_getElem_one (l : List Char) (i : Nat) : (l.drop i)[1]? = l[i + 1]? := by
  rw [List.getElem?_drop]

theorem indexOfSub_pair_none_iff (l : List Char) (x y : Char) :
    indexOfSub l [x, y] = none ↔ ¬contains2 l x y := by
  rw [indexOfSub_none_iff]
  constructor
  · intro h hc
    obtain ⟨i, h1, h2⟩ := hc
    have := h i
    rw [Bool.eq_false_iff] at this
    exact this (by rw [isPre_pair, drop_getElem_zero, drop_getElem_one]; exact ⟨h1, h2⟩)
  · intro h i
    rw [Bool.eq_false_iff]
    intro hc
    rw [isPre_pair, drop_getElem_zero, drop_getElem_one] at hc
    exact h ⟨i, hc.1, hc.2⟩

theorem indexOfSub_single_none_iff (l : List Char) (x : Char) :
    indexOfSub l [x] = none ↔ x ∉ l := by
  rw [indexOfSub_none_iff]
  constructor
  · intro h hm
    obtain ⟨i, hi⟩ := List.mem_iff_getElem?.mp hm
    have := h i
    rw [Bool.eq_false_iff] at this
    exact this (by rw [isPre_single, drop_getElem_zero]; exact hi)
  · intro h i
    rw [Bool.eq_false_iff]
    intro hc
    rw [isPre_single, drop_getElem_zero] at hc
    exact h (List.mem_iff_getElem?.mpr ⟨i, hc⟩)

theorem fieldsAux_chunks (l : List Char) : ∀ (acc : List Char),
    (∀ c ∈ acc, isSpace c = false) →
    ∀ f ∈ fieldsAux acc l, f ≠ [] ∧ ∀ c ∈ f, isSpace c = false := by
  induction l with
  | nil =>
    intro acc hacc f hf
    simp only [fieldsAux] at hf
    by_cases ha : acc = []
    · rw [if_pos ha] at hf
      simp at hf
    · rw [if_neg ha] at hf
      rw [List.mem_singleton] at hf
      subst hf
      refine ⟨fun h => ha (by simpa using h), ?_⟩
      intro c hc
      exact hacc c (List.mem_reverse.mp hc)
  | cons c t ih =>
    intro acc hacc f hf
    simp only [fieldsAux] at hf
    by_cases hs : isSpace c
    · rw [if_pos hs] at hf
      by_cases ha : acc = []
      · rw [if_pos ha] at hf
        exact ih [] (by simp) f hf
      · rw [if_neg ha] at hf
        rcases List.mem_cons.mp hf with rfl | hf
        · refine ⟨fun h => ha (by simpa using h), ?_⟩
          intro d hd
          exact hacc d (List.mem_reverse.mp hd)
        · exact ih [] (by simp) f hf
    · rw [if_neg hs] at hf
      refine ih (c :: acc) ?_ f hf
      intro d hd
      rcases List.mem_cons.mp hd with rfl | hd
      · exact Bool.eq_false_iff.mpr hs
      · exact hacc d hd

theorem fields_chunks (l : List Char) :
    ∀ f ∈ fields l, f ≠ [] ∧ ∀ c ∈ f, isSpace c = false :=
  fieldsAux_chunks l [] (by simp)

theorem joinSpace_cons (f g : List Char) (rest : List (List Char)) :
    joinSpace (f :: g :: rest) = f ++ ' ' :: joinSpace (g :: rest) := rfl

theorem joinSpace_shape (c : Char) (f' : List Char) (rest : List (List Char)) :
    ∃ X, joinSpace ((c :: f') :: rest) = c :: X := by
  cases rest with
  | nil => exact ⟨f', rfl⟩
  | cons g r2 => exact ⟨f' ++ ' ' :: joinSpace (g :: r2), rfl⟩

theorem trimRight_append_right (x y : List Char) (hy : trimRight y = y)
    (hyne : y ≠ []) : trimRight (x ++ y) = x ++ y := by
  induction x with
  | nil => simpa using hy
  | cons c x' ih =>
    rw [List.cons_append]
    exact trimRight_cons_eq_cons ih
      (fun hc => hyne (List.append_eq_nil.mp hc).2)

theorem trimRight_all_nonspace (f : List Char)
    (h : ∀ c ∈ f, isSpace c = false) : trimRight f = f := by
  induction f with
  | nil => rfl
  | cons c t ih =>
    have ht : trimRight t = t := ih fun d hd => h d (List.mem_cons_of_mem _ hd)
    cases t with
    | nil =>
      rw [trimRight_cons]
      simp only [h c (List.mem_cons_self _ _)]
      rfl
    | cons b t' => exact trimRight_cons_eq_cons ht (by simp)

theorem trimRight_joinSpace (L : List (List Char))
    (hL : ∀ f ∈ L, f ≠ [] ∧ ∀ c ∈ f, isSpace c = false) :
    trimRight (joinSpace L) = joinSpace L := by
  induction L with
  | nil => rfl
  | cons f rest ih =>
    cases rest with
    | nil => exact trimRight_all_nonspace f (hL f (List.mem_cons_self _ _)).2
    | cons g r2 =>
      rw [joinSpace_cons]
      have htail : ∀ f' ∈ g :: r2, f' ≠ [] ∧ ∀ c ∈ f', isSpace c = false :=
        fun f' hf' => hL f' (List.mem_cons_of_mem _ hf')
      have hj := ih htail
      have hjne : joinSpace (g :: r2) ≠ [] := by
        obtain ⟨hgne, -⟩ := htail g (List.mem_cons_self _ _)
        obtain ⟨cg, g', rfl⟩ : ∃ cg g', g = cg :: g' := by
          cases g with
          | nil => exact absurd rfl hgne
          | cons cg g' => exact ⟨cg, g', rfl⟩
        obtain ⟨X, hX⟩ := joinSpace_shape cg g' r2
        rw [hX]
        simp
      exact trimRight_append_right f (' ' :: joinSpace (g :: r2))
        (trimRight_cons_eq_cons hj hjne) (by simp)

theorem trimLeft_joinSpace (L : List (List Char))
    (hL : ∀ f ∈ L, f ≠ [] ∧ ∀ c ∈ f, isSpace c = false) :
    trimLeft (joinSpace L) = joinSpace L := by
  cases L with
  | nil => rfl
  | cons f rest =>
    obtain ⟨hfne, hfns⟩ := hL f (List.mem_cons_self _ _)
    obtain ⟨c, f', rfl⟩ : ∃ c f', f = c :: f' := by
      cases f with
      | nil => exact absurd rfl hfne
      | cons c f' => exact ⟨c, f', rfl⟩
    obtain ⟨X, hX⟩ := joinSpace_shape c f' rest
    rw [hX]
    exact trimLeft_cons_nonspace X (hfns c (List.mem_cons_self _ _))

theorem trimSpace_collapse (l : List Char) :
    trimSpace (collapse l) = collapse l := by
  unfold collapse trimSpace
  rw [trimLeft_joinSpace _ (fields_chunks l), trimRight_joinSpace _ (fields_chunks l)]

theorem fieldsAux_run (f : List Char) (hns : ∀ c ∈ f, isSpace c = false) :
    ∀ (acc rest : List Char),
      fieldsAux acc (f ++ rest) = fieldsAux (f.reverse ++ acc) rest := by
  induction f with
  | nil => intro acc rest; simp
  | cons c f' ih =>
    intro acc rest
    rw [List.cons_append]
    simp only [fieldsAux]
    rw [if_neg (by simp [hns c (List.mem_cons_self _ _)])]
    rw [ih (fun d hd => hns d (List.mem_cons_of_mem _ hd)) (c :: acc) rest]
    congr 1
    simp

theorem fields_joinSpace (L : List (List Char))
    (hL : ∀ f ∈ L, f ≠ [] ∧ ∀ c ∈ f, isSpace c = false) :
    fields (joinSpace L) = L := by
  induction L with
  | nil => rfl
  | cons f rest ih =>
    obtain ⟨hfne, hfns⟩ := hL f (List.mem_cons_self _ _)
    cases rest with
    | nil =>
      show fieldsAux [] f = [f]
      have hrun := fieldsAux_run f hfns [] []
      rw [List.append_nil] at hrun
      rw [hrun]
      simp only [fieldsAux]
      rw [List.append_nil, if_neg (by simpa using hfne), List.reverse_reverse]
    | cons g r2 =>
      show fieldsAux [] (f ++ ' ' :: joinSpace (g :: r2)) = f :: g :: r2
      rw [fieldsAux_run f hfns [] (' ' :: joinSpace (g :: r2))]
      simp only [fieldsAux]
      rw [if_pos (by decide : isSpace ' ' = true)]
      rw [List.append_nil, if_neg (by simpa using hfne), List.reverse_reverse]
      congr 1
      exact ih fun f' hf' => hL f' (List.mem_cons_of_mem _ hf')

theorem collapse_collapse (l : List Char) : collapse (collapse l) = collapse l := by
  unfold collapse
  rw [fields_joinSpace (fields l) (fields_chunks l)]

theorem c2_joinSpace_elim (L : List (List Char)) (x y : Char) (hx : x ≠ ' ')
    (hy : y ≠ ' ') (h : contains2 (joinSpace L) x y) : ∃ f ∈ L, contains2 f x y := by
  induction L with
  | nil =>
    obtain ⟨i, h1, -⟩ := h
    rw [show joinSpace [] = [] from rfl, List.getElem?_nil] at h1
    exact Option.noConfusion h1
  | cons f rest ih =>
    cases rest with
    | nil => exact ⟨f, List.mem_cons_self _ _, h⟩
    | cons g r2 =>
      rw [joinSpace_cons] at h
      rcases c2_append_elim h with h | h | ⟨i, hi, h1, h2⟩
      · exact ⟨f, List.mem_cons_self _ _, h⟩
      · rcases c2_cons_elim h with ⟨hcx, -⟩ | h
        · exact absurd hcx.symm hx
        · obtain ⟨f', hf', hc⟩ := ih h
          exact ⟨f', List.mem_cons_of_mem _ hf', hc⟩
      · rw [List.getElem?_cons_zero] at h2
        injection h2 with h2
        exact absurd h2.symm hy

theorem c2_fieldsAux_elim (x y : Char) (l : List Char) :
    ∀ (acc f : List Char), f ∈ fieldsAux acc l → contains2 f x y →
      contains2 (acc.reverse ++ l) x y := by
  induction l with
  | nil =>
    intro acc f hf hc
    simp only [fieldsAux] at hf
    by_cases ha : acc = []
    · rw [if_pos ha] at hf
      simp at hf
    · rw [if_neg ha] at hf
      rw [List.mem_singleton] at hf
      subst hf
      rw [List.append_nil]
      exact hc
  | cons c t ih =>
    intro acc f hf hc
    simp only [fieldsAux] at hf
    by_cases hs : isSpace c
    · rw [if_pos hs] at hf
      by_cases ha : acc = []
      · rw [if_pos ha] at hf
        have := ih [] f hf hc
        rw [List.reverse_nil, List.nil_append] at this
        exact c2_append_right (c2_cons_tail this)
      · rw [if_neg ha] at hf
        rcases List.mem_cons.mp hf with rfl | hf
        · exact c2_append_left hc
        · have := ih [] f hf hc
          rw [List.reverse_nil, List.nil_append] at this
          exact c2_append_right (c2_cons_tail this)
    · rw [if_neg hs] at hf
      have := ih (c :: acc) f hf hc
      rw [List.reverse_cons, List.append_assoc, List.singleton_append] at this
      exact this

theorem c2_collapse_elim (l : List Char) (x y : Char) (hx : x ≠ ' ')
    (hy : y ≠ ' ') (h : contains2 (collapse l) x y) : contains2 l x y := by
  unfold collapse at h
  obtain ⟨f, hf, hc⟩ := c2_joinSpace_elim _ x y hx hy h
  have := c2_fieldsAux_elim x y l [] f hf hc
  rw [List.reverse_nil, List.nil_append] at this
  exact this

theorem mem_joinSpace_elim (L : List (List Char)) (c : Char) (hc : c ≠ ' ')
    (h : c ∈ joinSpace L) : ∃ f ∈ L, c ∈ f := by
  induction L with
  | nil => simp [joinSpace] at h
  | cons f rest ih =>
    cases rest with
    | nil => exact ⟨f, List.mem_cons_self _ _, h⟩
    | cons g r2 =>
      rw [joinSpace_cons, List.mem_append] at h
      rcases h with h | h
      · exact ⟨f, List.mem_cons_self _ _, h⟩
      · rcases List.mem_cons.mp h with rfl | h
        · exact absurd rfl hc
        · obtain ⟨f', hf', hm⟩ := ih h
          exact ⟨f', List.mem_cons_of_mem _ hf', hm⟩

theorem mem_fieldsAux_elim (c : Char) (l : List Char) :
    ∀ (acc f : List Char), f ∈ fieldsAux acc l → c ∈ f → c ∈ acc.reverse ++ l := by
  induction l with
  | nil =>
    intro acc f hf hm
    simp only [fieldsAux] at hf
    by_cases ha : acc = []
    · rw [if_pos ha] at hf
      simp at hf
    · rw [if_neg ha] at hf
      rw [List.mem_singleton] at hf
      subst hf
      rw [List.append_nil]
      exact hm
  | cons d t ih =>
    intro acc f hf hm
    simp only [fieldsAux] at hf
    by_cases hs : isSpace d
    · rw [if_pos hs] at hf
      by_cases ha : acc = []
      · rw [if_pos ha] at hf
        have := ih [] f hf hm
        rw [List.reverse_nil, List.nil_append] at this
        exact List.mem_append_right _ (List.mem_cons_of_mem _ this)
      · rw [if_neg ha] at hf
        rcases List.mem_cons.mp hf with rfl | hf
        · exact List.mem_append_left _ hm
        · have := ih [] f hf hm
          rw [List.reverse_nil, List.nil_append] at this
          exact List.mem_append_right _ (List.mem_cons_of_mem _ this)
    · rw [if_neg hs] at hf
      have := ih (d :: acc) f hf hm
      rw [List.reverse_cons, List.append_assoc, List.singleton_append] at this
      exact this

theorem mem_collapse_elim (l : List Char) (c : Char) (hc : c ≠ ' ')
    (h : c ∈ collapse l) : c ∈ l := by
  unfold collapse at h
  obtain ⟨f, hf, hm⟩ := mem_joinSpace_elim _ c hc h
  have := mem_fieldsAux_elim c l [] f hf hm
  rw [List.reverse_nil, List.nil_append] at this
  exact this

theorem joinSpace_fieldsAux_acc (t : List Char) :
    ∀ acc : List Char, acc ≠ [] →
      ∃ X, joinSpace (fieldsAux acc t) = acc.reverse ++ X := by
  induction t with
  | nil =>
    intro acc ha
    refine ⟨[], ?_⟩
    simp only [fieldsAux]
    rw [if_neg ha]
    rw [List.append_nil]
    rfl
  | cons d t' ih =>
    intro acc ha
    simp only [fieldsAux]
    by_cases hs : isSpace d
    · rw [if_pos hs, if_neg ha]
      cases hft : fieldsAux [] t' with
      | nil => exact ⟨[], by rw [List.append_nil]; rfl⟩
      | cons f0 rest =>
        refine ⟨' ' :: joinSpace (f0 :: rest), ?_⟩
        rw [joinSpace_cons]
    · rw [if_neg hs]
      obtain ⟨X, hX⟩ := ih (d :: acc) (by simp)
      refine ⟨d :: X, ?_⟩
      rw [hX, List.reverse_cons, List.append_assoc, List.singleton_append]

/-- `collapse` keeps a non-space head character. -/
theorem collapse_head (c : Char) (t : List Char) (hc : isSpace c = false) :
    ∃ X, collapse (c :: t) = c :: X := by
  unfold collapse fields
  simp only [fieldsAux]
  rw [if_neg (by simp [hc])]
  obtain ⟨X, hX⟩ := joinSpace_fieldsAux_acc t [c] (by simp)
  exact ⟨X, by rw [hX]; rfl⟩

theorem chars_slashes : chars "//" = ['/', '/'] := by decide

theorem chars_blockOpen : chars "/*" = ['/', '*'] := by decide

theorem chars_blockClose : chars "*/" = ['*', '/'] := by decide

theorem chars_hash : chars "#" = ['#'] := by decide

theorem stripSlash_eq_none (line : List Char)
    (hio : indexOfSub line (chars "//") = none) :
    stripSlashComment line = line := by
  unfold stripSlashComment
  rw [hio]

theorem stripSlash_eq_some (line : List Char) (idx : Nat)
    (hio : indexOfSub line (chars "//") = some idx) :
    stripSlashComment line = trimSpace (line.take idx) := by
  unfold stripSlashComment
  rw [hio]

theorem stripBlock_eq_none (line : List Char)
    (hio : indexOfSub line (chars "/*") = none) :
    stripBlockComment line = line := by
  unfold stripBlockComment
  rw [hio]

theorem stripBlock_eq_open (line : List Char) (idx : Nat)
    (hio : indexOfSub line (chars "/*") = some idx)
    (hie : indexOfSub (line.drop idx) (chars "*/") = none) :
    stripBlockComment line = trimSpace (line.take idx) := by
  unfold stripBlockComment
  rw [hio]
  show (match indexOfSub (line.drop idx) (chars "*/") with
    | some endIdx => trimSpace (line.take idx ++ line.drop (idx + endIdx + 2))
    | none => trimSpace (line.take idx)) = trimSpace (line.take idx)
  rw [hie]

theorem stripBlock_eq_span (line : List Char) (idx endIdx : Nat)
    (hio : indexOfSub line (chars "/*") = some idx)
    (hie : indexOfSub (line.drop idx) (chars "*/") = some endIdx) :
    stripBlockComment line =
      trimSpace (line.take idx ++ line.drop (idx + endIdx + 2)) := by
  unfold stripBlockComment
  rw [hio]
  show (match indexOfSub (line.drop idx) (chars "*/") with
    | some e => trimSpace (line.take idx ++ line.drop (idx + e + 2))
    | none => trimSpace (line.take idx)) =
    trimSpace (line.take idx ++ line.drop (idx + endIdx + 2))
  rw [hie]

theorem stripHash_eq_none (line : List Char)
    (hio : indexOfSub line (chars "#") = none) :
    stripHashComment line = line := by
  unfold stripHashComment
  rw [hio]

theorem stripHash_eq_some (line : List Char) (idx : Nat)
    (hio : indexOfSub line (chars "#") = some idx) :
    stripHashComment line = trimSpace (line.take idx) := by
  unfold stripHashComment
  rw [hio]

theorem stripSlash_no2 (line : List Char) :
    ¬contains2 (stripSlashComment line) '/' '/' := by
  cases hio : indexOfSub line (chars "//") with
  | none =>
    rw [stripSlash_eq_none line hio]
    rw [chars_slashes] at hio
    exact (indexOfSub_pair_none_iff line '/' '/').mp hio
  | some idx =>
    rw [stripSlash_eq_some line idx hio]
    intro hc
    have hc' := c2_of_trimSpace hc
    obtain ⟨i, hi, h1, h2⟩ := c2_of_take_pos hc'
    have hmin := indexOfSub_some_min line (chars "//") idx hio i (by omega)
    rw [chars_slashes] at hmin
    rw [Bool.eq_false_iff] at hmin
    exact hmin (by
      rw [isPre_pair, drop_getElem_zero, drop_getElem_one]
      exact ⟨h1, h2⟩)

theorem stripBlock_pres_noSlash (line : List Char)
    (h : ¬contains2 line '/' '/') :
    ¬contains2 (stripBlockComment line) '/' '/' := by
  cases hio : indexOfSub line (chars "/*") with
  | none =>
    rw [stripBlock_eq_none line hio]
    exact h
  | some idx =>
    cases hie : indexOfSub (line.drop idx) (chars "*/") with
    | none =>
      rw [stripBlock_eq_open line idx hio hie]
      intro hc
      exact h (c2_of_take (c2_of_trimSpace hc))
    | some endIdx =>
      rw [stripBlock_eq_span line idx endIdx hio hie]
      intro hc
      have hc' := c2_of_trimSpace hc
      rcases c2_append_elim hc' with hcc | hcc | ⟨i, hi, h1, h2⟩
      · exact h (c2_of_take hcc)
      · exact h (c2_of_drop hcc)
      · have hat := indexOfSub_some_at line (chars "/*") idx hio
        rw [chars_blockOpen, isPre_pair, drop_getElem_zero, drop_getElem_one] at hat
        have hlt : idx < line.length := getElem?_some_lt hat.1
        have hlen : (line.take idx).length = idx := by
          rw [List.length_take]
          omega
        have h1' : (line)[i]? = some '/' := by
          rw [List.getElem?_take] at h1
          by_cases hin : i < idx
          · rw [if_pos hin] at h1
            exact h1
          · rw [if_neg hin] at h1
            exact Option.noConfusion h1
        refine h ⟨i, h1', ?_⟩
        have he : i + 1 = idx := by omega
        rw [he]
        exact hat.1

theorem stripHash_noHash (line : List Char) : '#' ∉ stripHashComment line := by
  cases hio : indexOfSub line (chars "#") with
  | none =>
    rw [stripHash_eq_none line hio]
    rw [chars_hash] at hio
    exact (indexOfSub_single_none_iff line '#').mp hio
  | some idx =>
    rw [stripHash_eq_some line idx hio]
    intro hm
    obtain ⟨j, k, he⟩ := trimSpace_rep (line.take idx)
    rw [he] at hm
    obtain ⟨i, hi⟩ := List.mem_iff_getElem?.mp hm
    rw [List.getElem?_take] at hi
    by_cases hin : i < k
    · rw [if_pos hin] at hi
      rw [List.getElem?_drop] at hi
      rw [List.getElem?_take] at hi
      by_cases hin2 : j + i < idx
      · rw [if_pos hin2] at hi
        have hmin := indexOfSub_some_min line (chars "#") idx hio (j + i) hin2
        rw [chars_hash, Bool.eq_false_iff] at hmin
        exact hmin (by rw [isPre_single, drop_getElem_zero]; exact hi)
      · rw [if_neg hin2] at hi
        exact Option.noConfusion hi
    · rw [if_neg hin] at hi
      exact Option.noConfusion hi

theorem stripHash_pres_c2 (line : List Char) (x y : Char)
    (h : ¬contains2 line x y) : ¬contains2 (stripHashComment line) x y := by
  cases hio : indexOfSub line (chars "#") with
  | none =>
    rw [stripHash_eq_none line hio]
    exact h
  | some idx =>
    rw [stripHash_eq_some line idx hio]
    intro hc
    exact h (c2_of_take (c2_of_trimSpace hc))

theorem stripSlash_pres_c2 (line : List Char) (x y : Char)
    (h : ¬contains2 line x y) : ¬contains2 (stripSlashComment line) x y := by
  cases hio : indexOfSub line (chars "//") with
  | none =>
    rw [stripSlash_eq_none line hio]
    exact h
  | some idx =>
    rw [stripSlash_eq_some line idx hio]
    intro hc
    exact h (c2_of_take (c2_of_trimSpace hc))

theorem stripBlock_of_noBlock (line : List Char)
    (h : ¬contains2 line '/' '*') : stripBlockComment line = line := by
  cases hio : indexOfSub line (chars "/*") with
  | none => exact stripBlock_eq_none line hio
  | some idx =>
    exfalso
    have hat := indexOfSub_some_at line (chars "/*") idx hio
    rw [chars_blockOpen, isPre_pair, drop_getElem_zero, drop_getElem_one] at hat
    exact h ⟨idx, hat.1, hat.2⟩

theorem normalizeLine_empty_of_marker (l : List Char)
    (h : trimSpace l = [] ∨
      (chars "<!--").isPrefixOf (trimSpace l) = true ∨
      (chars "//").isPrefixOf (trimSpace l) = true ∨
      (chars "/*").isPrefixOf (trimSpace l) = true ∨
      (chars "*").isPrefixOf (trimSpace l) = true ∨
      (chars "#").isPrefixOf (trimSpace l) = true) :
    normalizeLine l = [] := by
  unfold normalizeLine
  by_cases c0 : trimSpace l = []
  · rw [if_pos c0]
  · rw [if_neg c0]
    by_cases c1 : (chars "<!--").isPrefixOf (trimSpace l) = true
    · rw [if_pos c1]
    · rw [if_neg c1]
      by_cases c2 : (chars "//").isPrefixOf (trimSpace l) = true
      · rw [if_pos c2]
      · rw [if_neg c2]
        by_cases c3 : ((chars "/*").isPrefixOf (trimSpace l) ||
            (chars "*").isPrefixOf (trimSpace l)) = true
        · rw [if_pos c3]
        · rw [if_neg c3]
          by_cases c4 : (chars "#").isPrefixOf (trimSpace l) = true
          · rw [if_pos c4]
          · exfalso
            rcases h with h | h | h | h | h | h
            · exact c0 h
            · exact c1 h
            · exact c2 h
            · exact c3 (by rw [h]; rfl)
            · exact c3 (by rw [h]; simp)
            · exact c4 h

theorem normalizeLine_eq_stages (l : List Char) (h0 : trimSpace l ≠ [])
    (h1 : (chars "<!--").isPrefixOf (trimSpace l) = false)
    (h2 : (chars "//").isPrefixOf (trimSpace l) = false)
    (h3 : (chars "/*").isPrefixOf (trimSpace l) = false)
    (h4 : (chars "*").isPrefixOf (trimSpace l) = false)
    (h5 : (chars "#").isPrefixOf (trimSpace l) = false) :
    normalizeLine l =
      (if stripSlashComment (trimSpace l) = [] then []
       else if stripBlockComment (stripSlashComment (trimSpace l)) = [] then []
       else if stripHashComment (stripBlockComment
           (stripSlashComment (trimSpace l))) = [] then []
       else collapse (stripHashComment (stripBlockComment
           (stripSlashComment (trimSpace l))))) := by
  unfold normalizeLine
  rw [if_neg h0, if_neg (by simp [h1]), if_neg (by simp [h2]),
    if_neg (by simp [h3, h4]), if_neg (by simp [h5])]

theorem normalizeLine_out (l : List Char) (h : normalizeLine l ≠ []) :
    ∃ line3, normalizeLine l = collapse line3 ∧ line3 ≠ [] ∧
      ¬contains2 line3 '/' '/' ∧ '#' ∉ line3 := by
  by_cases c0 : trimSpace l = []
  · exact absurd (normalizeLine_empty_of_marker l (Or.inl c0)) h
  by_cases c1 : (chars "<!--").isPrefixOf (trimSpace l) = true
  · exact absurd (normalizeLine_empty_of_marker l (Or.inr (Or.inl c1))) h
  by_cases c2 : (chars "//").isPrefixOf (trimSpace l) = true
  · exact absurd (normalizeLine_empty_of_marker l (Or.inr (Or.inr (Or.inl c2)))) h
  by_cases c3 : (chars "/*").isPrefixOf (trimSpace l) = true
  · exact absurd
      (normalizeLine_empty_of_marker l (Or.inr (Or.inr (Or.inr (Or.inl c3))))) h
  by_cases c4 : (chars "*").isPrefixOf (trimSpace l) = true
  · exact absurd
      (normalizeLine_empty_of_marker l
        (Or.inr (Or.inr (Or.inr (Or.inr (Or.inl c4)))))) h
  by_cases c5 : (chars "#").isPrefixOf (trimSpace l) = true
  · exact absurd
      (normalizeLine_empty_of_marker l
        (Or.inr (Or.inr (Or.inr (Or.inr (Or.inr c5)))))) h
  rw [normalizeLine_eq_stages l c0 (Bool.eq_false_iff.mpr c1)
    (Bool.eq_false_iff.mpr c2) (Bool.eq_false_iff.mpr c3)
    (Bool.eq_false_iff.mpr c4) (Bool.eq_false_iff.mpr c5)] at h ⊢
  by_cases e1 : stripSlashComment (trimSpace l) = []
  · rw [if_pos e1] at h
    exact absurd rfl h
  rw [if_neg e1] at h ⊢
  by_cases e2 : stripBlockComment (stripSlashComment (trimSpace l)) = []
  · rw [if_pos e2] at h
    exact absurd rfl h
  rw [if_neg e2] at h ⊢
  by_cases e3 : stripHashComment (stripBlockComment
      (stripSlashComment (trimSpace l))) = []
  · rw [if_pos e3] at h
    exact absurd rfl h
  rw [if_neg e3] at h ⊢
  refine ⟨_, rfl, e3, ?_, stripHash_noHash _⟩
  exact stripHash_pres_c2 _ '/' '/' (stripBlock_pres_noSlash _ (stripSlash_no2 _))

/-- C2 counterexample: a surviving output line can retain a full
`/* ... */` block comment — only the first span is removed — so the output
is not comment-free as claimed. -/
theorem normalizeLine_not_comment_free :
    normalizeLine (chars "a /* b */ c /* d */ e") = chars "a c /* d */ e" ∧
    (indexOfSub (normalizeLine (chars "a /* b */ c /* d */ e"))
      (chars "/*")).isSome = true ∧
    (indexOfSub (normalizeLine (chars "a /* b */ c /* d */ e"))
      (chars "*/")).isSome = true :=
  ⟨by decide, by decide, by decide⟩

/-- C2 amended: per line the normalizer trims, drops empty and
full-line-comment lines, strips the inline comments and collapses
whitespace, so every surviving output line is non-empty, trimmed,
single-spaced, and free of `//` and `#` markers; text of a second
`/* ... */` block comment may survive, since only the first span is
removed. -/
theorem normalizer_steps (lines : List (List Char)) :
    (∀ l ∈ lines,
      (trimSpace l = [] → normalizeLine l = []) ∧
      ((chars "<!--").isPrefixOf (trimSpace l) = true ∨
       (chars "//").isPrefixOf (trimSpace l) = true ∨
       (chars "/*").isPrefixOf (trimSpace l) = true ∨
       (chars "*").isPrefixOf (trimSpace l) = true ∨
       (chars "#").isPrefixOf (trimSpace l) = true → normalizeLine l = [])) ∧
    (∀ out ∈ normalizeLines lines,
      out ≠ [] ∧ trimSpace out = out ∧ collapse out = out ∧
      ¬contains2 out '/' '/' ∧ '#' ∉ out) := by
  constructor
  · intro l _
    exact ⟨fun h => normalizeLine_empty_of_marker l (Or.inl h),
      fun h => normalizeLine_empty_of_marker l (Or.inr h)⟩
  · intro out hout
    unfold normalizeLines at hout
    obtain ⟨hmap, hpred⟩ := List.mem_filter.mp hout
    have hne : out ≠ [] := by simpa using hpred
    obtain ⟨l, -, rfl⟩ := List.mem_map.mp hmap
    obtain ⟨line3, heq, -, hslash, hhash⟩ := normalizeLine_out l hne
    rw [heq] at hne ⊢
    refine ⟨hne, trimSpace_collapse line3, collapse_collapse line3, ?_, ?_⟩
    · intro hc
      exact hslash (c2_collapse_elim line3 '/' '/' (by decide) (by decide) hc)
    · intro hm
      exact hhash (mem_collapse_elim line3 '#' (by decide) hm)

theorem normalizer_steps_witness :
    chars "a b" ∈ normalizeLines
      [chars "   ", chars "// full", chars "  a   b // c"] ∧
    trimSpace (chars "a b") = chars "a b" ∧
    collapse (chars "a b") = chars "a b" :=
  have h := (normalizer_steps
    [chars "   ", chars "// full", chars "  a   b // c"]).2
    (chars "a b") (by decide)
  ⟨by decide, h.2.1, h.2.2.1⟩

theorem trimRight_singleton (c : Char) (h : isSpace c = false) :
    trimRight [c] = [c] := by
  rw [trimRight_cons]
  show (if isSpace c then [] else [c]) = [c]
  rw [h]
  rfl

theorem trimRight_trimRight (l : List Char) :
    trimRight (trimRight l) = trimRight l := by
  induction l with
  | nil => rfl
  | cons c t ih =>
    cases htr : trimRight t with
    | nil =>
      have h1 : trimRight (c :: t) = if isSpace c then [] else [c] := by
        rw [trimRight_cons, htr]
      by_cases h : isSpace c
      · rw [h1, if_pos h]
        rfl
      · rw [h1, if_neg h]
        exact trimRight_singleton c (Bool.eq_false_iff.mpr h)
    | cons r0 rt =>
      have h1 : trimRight (c :: t) = c :: r0 :: rt :=
        trimRight_cons_eq_cons htr (by simp)
      rw [h1]
      rw [htr] at ih
      exact trimRight_cons_eq_cons ih (by simp)

theorem trimSpace_trimSpace (l : List Char) :
    trimSpace (trimSpace l) = trimSpace l := by
  by_cases h : trimSpace l = []
  · rw [h]
    rfl
  · obtain ⟨c, t, he, hc⟩ := trimSpace_head_nonspace l h
    rw [he]
    show trimRight (trimLeft (c :: t)) = c :: t
    rw [trimLeft_cons_nonspace _ hc]
    have hidem : trimRight (trimRight (trimLeft l)) = trimRight (trimLeft l) :=
      trimRight_trimRight _
    have he' : trimRight (trimLeft l) = c :: t := he
    rw [he'] at hidem
    exact hidem

theorem preRefl (l : List Char) : l <+: l := ⟨[], List.append_nil l⟩

theorem preNil (l : List Char) : [] <+: l := ⟨l, rfl⟩

/-- Re-trimming a prefix segment of an already-trimmed line yields a prefix
of that line. -/
theorem trimSpace_take_pre (line : List Char) (n : Nat)
    (htr : trimSpace line = line) : trimSpace (line.take n) <+: line := by
  cases line with
  | nil =>
    rw [List.take_nil]
    exact preNil []
  | cons c t =>
    cases n with
    | zero =>
      rw [List.take_zero]
      exact preNil (c :: t)
    | succ n =>
      obtain ⟨c', t', he, hc'⟩ := trimSpace_head_nonspace (c :: t)
        (by rw [htr]; simp)
      rw [htr] at he
      injection he with e1 _
      rw [← e1] at hc'
      rw [List.take_succ_cons]
      show trimRight (trimLeft (c :: t.take n)) <+: c :: t
      rw [trimLeft_cons_nonspace _ hc']
      obtain ⟨k, hk⟩ := trimRight_eq_take (c :: t.take n)
      rw [hk]
      refine preTrans (preOfTake _ k) ?_
      exact ⟨t.drop n, by rw [List.cons_append, List.take_append_drop]⟩

theorem stripSlash_pre (line : List Char) (htr : trimSpace line = line) :
    stripSlashComment line <+: line := by
  cases hio : indexOfSub line (chars "//") with
  | none =>
    rw [stripSlash_eq_none line hio]
  | some idx =>
    rw [stripSlash_eq_some line idx hio]
    exact trimSpace_take_pre line idx htr

theorem stripHash_pre (line : List Char) (htr : trimSpace line = line) :
    stripHashComment line <+: line := by
  cases hio : indexOfSub line (chars "#") with
  | none =>
    rw [stripHash_eq_none line hio]
  | some idx =>
    rw [stripHash_eq_some line idx hio]
    exact trimSpace_take_pre line idx htr

/-- The output of a re-trimming strip stage is itself trimmed. -/
theorem stripSlash_trimmed (line : List Char) (htr : trimSpace line = line) :
    trimSpace (stripSlashComment line) = stripSlashComment line := by
  cases hio : indexOfSub line (chars "//") with
  | none =>
    rw [stripSlash_eq_none line hio]
    exact htr
  | some idx =>
    rw [stripSlash_eq_some line idx hio]
    exact trimSpace_trimSpace _

theorem isPrefixOf_iff_pre (p l : List Char) :
    p.isPrefixOf l = true ↔ p <+: l := by
  induction p generalizing l with
  | nil =>
    constructor
    · intro _
      exact preNil l
    · intro _
      exact List.isPrefixOf_nil_left
  | cons c p' ih =>
    cases l with
    | nil =>
      constructor
      · intro h
        exact Bool.noConfusion h
      · rintro ⟨s, hs⟩
        exact List.noConfusion hs
    | cons d t =>
      rw [List.isPrefixOf_cons₂, Bool.and_eq_true, beq_iff_eq, ih,
        List.cons_prefix_cons]

theorem takeWhile_pre (p : Char → Bool) (l : List Char) : l.takeWhile p <+: l :=
  ⟨l.dropWhile p, List.takeWhile_append_dropWhile p l⟩

/-- On a line whose head is non-whitespace, the first field of `fields` is
the maximal leading non-whitespace run. -/
theorem fields_head_takeWhile (c : Char) (t : List Char) (hc : isSpace c = false) :
    ∃ rest, fields (c :: t) =
      ((c :: t).takeWhile (fun d => !isSpace d)) :: rest := by
  set w := (c :: t).takeWhile (fun d => !isSpace d) with hwdef
  set r := (c :: t).dropWhile (fun d => !isSpace d) with hrdef
  have hsplit : w ++ r = c :: t := List.takeWhile_append_dropWhile _ _
  have hwns : ∀ d ∈ w, isSpace d = false := by
    intro d hd
    have := List.mem_takeWhile_imp hd
    simpa using this
  have hwne : w ≠ [] := by
    rw [hwdef, List.takeWhile_cons, if_pos (by simp [hc])]
    simp
  rw [show fields (c :: t) = fieldsAux w.reverse r from by
    unfold fields
    rw [← hsplit, fieldsAux_run w hwns [] r, List.append_nil]]
  cases hr : r with
  | nil =>
    refine ⟨[], ?_⟩
    simp only [fieldsAux]
    rw [if_neg (by simp only [List.reverse_eq_nil_iff]; exact hwne),
      List.reverse_reverse]
  | cons d r' =>
    have hdw : (c :: t).dropWhile (fun d => !isSpace d) = d :: r' := by
      rw [← hrdef, hr]
    have hd : isSpace d = true := by
      have := dropWhile_head_false (fun d => !isSpace d) (c :: t) d r' hdw
      simpa using this
    refine ⟨fieldsAux [] r', ?_⟩
    simp only [fieldsAux]
    rw [if_pos hd,
      if_neg (by simp only [List.reverse_eq_nil_iff]; exact hwne),
      List.reverse_reverse]

theorem pre_append_split {p w v : List Char} (h : p <+: w ++ v) :
    p <+: w ∨ ∃ q, q ≠ [] ∧ p = w ++ q ∧ q <+: v := by
  obtain ⟨s, hs⟩ := h
  rcases List.append_eq_append_iff.mp hs with ⟨a', ha1, _⟩ | ⟨c', hc1, hc2⟩
  · exact Or.inl ⟨a', ha1.symm⟩
  · by_cases hq : c' = []
    · subst hq
      rw [List.append_nil] at hc1
      exact Or.inl (by rw [hc1])
    · exact Or.inr ⟨c', hq, hc1, ⟨s, hc2.symm⟩⟩

/-- A non-whitespace prefix of a collapsed trimmed line is already a prefix
of the line itself: collapsing can only shrink interior whitespace runs,
which a space-free prefix cannot straddle. -/
theorem collapse_pre_transfer (l p : List Char) (htr : trimSpace l = l)
    (hp : ∀ c ∈ p, isSpace c = false) (h : p <+: collapse l) : p <+: l := by
  cases l with
  | nil =>
    obtain ⟨s, hs⟩ := h
    have hps : p ++ s = ([] : List Char) := hs
    rw [(List.append_eq_nil.mp hps).1]
  | cons c t =>
    have hc : isSpace c = false := by
      obtain ⟨c', t', he, hc'⟩ := trimSpace_head_nonspace (c :: t) (by rw [htr]; simp)
      rw [htr] at he
      injection he with e1 _
      rw [← e1] at hc'
      exact hc'
    obtain ⟨rest, hfr⟩ := fields_head_takeWhile c t hc
    have hcol : collapse (c :: t) =
        joinSpace (((c :: t).takeWhile (fun d => !isSpace d)) :: rest) := by
      unfold collapse
      rw [hfr]
    rw [hcol] at h
    have hwpre : ((c :: t).takeWhile (fun d => !isSpace d)) <+: c :: t :=
      takeWhile_pre _ _
    cases rest with
    | nil => exact preTrans h hwpre
    | cons g r2 =>
      rw [joinSpace_cons] at h
      rcases pre_append_split h with h' | ⟨q, hqne, hpq, hqpre⟩
      · exact preTrans h' hwpre
      · exfalso
        obtain ⟨d, q', rfl⟩ : ∃ d q', q = d :: q' := by
          cases q with
          | nil => exact absurd rfl hqne
          | cons d q' => exact ⟨d, q', rfl⟩
        obtain ⟨s, hs⟩ := hqpre
        rw [List.cons_append] at hs
        injection hs with e1 _
        have hdp : d ∈ p := by
          rw [hpq]
          exact List.mem_append_right _ (List.mem_cons_self _ _)
        have hdns := hp d hdp
        rw [e1] at hdns
        exact absurd hdns (by decide)

theorem stripHash_trimmed (line : List Char) (htr : trimSpace line = line) :
    trimSpace (stripHashComment line) = stripHashComment line := by
  cases hio : indexOfSub line (chars "#") with
  | none =>
    rw [stripHash_eq_none line hio]
    exact htr
  | some idx =>
    rw [stripHash_eq_some line idx hio]
    exact trimSpace_trimSpace _

/-- A full-line marker that was absent at the head of the trimmed input line
stays absent at the head of the collapsed stripped line. -/
theorem marker_transfer (line3 t0 p : List Char) (htr : trimSpace line3 = line3)
    (hp : ∀ c ∈ p, isSpace c = false) (hpre3 : line3 <+: t0)
    (hm : p.isPrefixOf t0 = false) : p.isPrefixOf (collapse line3) = false := by
  rw [Bool.eq_false_iff] at hm ⊢
  intro hc
  rw [isPrefixOf_iff_pre] at hc
  exact hm (by
    rw [isPrefixOf_iff_pre]
    exact preTrans (collapse_pre_transfer line3 p htr hp hc) hpre3)

/-- A line with no `/*` marker normalizes to a fixed point of
`normalizeLine`: the output is trimmed, collapsed, and free of every marker
the normalizer reacts to, so a second pass leaves it unchanged. -/
theorem normalizeLine_idem_of_noBlock (l : List Char)
    (hnb : ¬contains2 l '/' '*') :
    normalizeLine (normalizeLine l) = normalizeLine l := by
  by_cases hne : normalizeLine l = []
  · rw [hne]
    rfl
  · by_cases c0 : trimSpace l = []
    · exact absurd (normalizeLine_empty_of_marker l (Or.inl c0)) hne
    by_cases c1 : (chars "<!--").isPrefixOf (trimSpace l) = true
    · exact absurd (normalizeLine_empty_of_marker l (Or.inr (Or.inl c1))) hne
    by_cases c2 : (chars "//").isPrefixOf (trimSpace l) = true
    · exact absurd (normalizeLine_empty_of_marker l (Or.inr (Or.inr (Or.inl c2)))) hne
    by_cases c3 : (chars "/*").isPrefixOf (trimSpace l) = true
    · exact absurd
        (normalizeLine_empty_of_marker l (Or.inr (Or.inr (Or.inr (Or.inl c3))))) hne
    by_cases c4 : (chars "*").isPrefixOf (trimSpace l) = true
    · exact absurd
        (normalizeLine_empty_of_marker l
          (Or.inr (Or.inr (Or.inr (Or.inr (Or.inl c4)))))) hne
    by_cases c5 : (chars "#").isPrefixOf (trimSpace l) = true
    · exact absurd
        (normalizeLine_empty_of_marker l
          (Or.inr (Or.inr (Or.inr (Or.inr (Or.inr c5)))))) hne
    have hb1 := Bool.eq_false_iff.mpr c1
    have hb2 := Bool.eq_false_iff.mpr c2
    have hb3 := Bool.eq_false_iff.mpr c3
    have hb4 := Bool.eq_false_iff.mpr c4
    have hb5 := Bool.eq_false_iff.mpr c5
    have hstages := normalizeLine_eq_stages l c0 hb1 hb2 hb3 hb4 hb5
    have ht0tr : trimSpace (trimSpace l) = trimSpace l := trimSpace_trimSpace l
    have h1tr : trimSpace (stripSlashComment (trimSpace l)) =
        stripSlashComment (trimSpace l) := stripSlash_trimmed _ ht0tr
    have h1pre : stripSlashComment (trimSpace l) <+: trimSpace l :=
      stripSlash_pre _ ht0tr
    have hnb0 : ¬contains2 (trimSpace l) '/' '*' :=
      fun hcc => hnb (c2_of_trimSpace hcc)
    have hnb1 : ¬contains2 (stripSlashComment (trimSpace l)) '/' '*' :=
      stripSlash_pres_c2 _ '/' '*' hnb0
    have hblock : stripBlockComment (stripSlashComment (trimSpace l)) =
        stripSlashComment (trimSpace l) := stripBlock_of_noBlock _ hnb1
    rw [hblock] at hstages
    have h3tr : trimSpace (stripHashComment (stripSlashComment (trimSpace l))) =
        stripHashComment (stripSlashComment (trimSpace l)) :=
      stripHash_trimmed _ h1tr
    have h3pre : stripHashComment (stripSlashComment (trimSpace l)) <+:
        stripSlashComment (trimSpace l) := stripHash_pre _ h1tr
    have hnb3 : ¬contains2 (stripHashComment (stripSlashComment (trimSpace l))) '/' '*' :=
      stripHash_pres_c2 _ '/' '*' hnb1
    have hpre : stripHashComment (stripSlashComment (trimSpace l)) <+: trimSpace l :=
      preTrans h3pre h1pre
    by_cases e1 : stripSlashComment (trimSpace l) = []
    · refine absurd ?_ hne
      rw [hstages]
      simp only [if_pos e1]
    by_cases e3 : stripHashComment (stripSlashComment (trimSpace l)) = []
    · refine absurd ?_ hne
      rw [hstages]
      simp only [if_neg e1, if_pos e3]
    have hout : normalizeLine l =
        collapse (stripHashComment (stripSlashComment (trimSpace l))) := by
      rw [hstages]
      simp only [if_neg e1, if_neg e3]
    have houtne : collapse (stripHashComment (stripSlashComment (trimSpace l))) ≠ [] := by
      rw [← hout]
      exact hne
    have houttr := trimSpace_collapse (stripHashComment (stripSlashComment (trimSpace l)))
    have hout_nb : ¬contains2
        (collapse (stripHashComment (stripSlashComment (trimSpace l)))) '/' '*' :=
      fun hcc => hnb3 (c2_collapse_elim _ '/' '*' (by decide) (by decide) hcc)
    have hout_no2 : ¬contains2
        (collapse (stripHashComment (stripSlashComment (trimSpace l)))) '/' '/' := by
      intro hcc
      exact stripHash_pres_c2 _ '/' '/' (stripSlash_no2 _)
        (c2_collapse_elim _ '/' '/' (by decide) (by decide) hcc)
    have hout_hash :
        '#' ∉ collapse (stripHashComment (stripSlashComment (trimSpace l))) := by
      intro hm
      exact stripHash_noHash _ (mem_collapse_elim _ '#' (by decide) hm)
    have m1 := marker_transfer _ _ (chars "<!--") h3tr (by decide) hpre hb1
    have m2 := marker_transfer _ _ (chars "//") h3tr (by decide) hpre hb2
    have m3 := marker_transfer _ _ (chars "/*") h3tr (by decide) hpre hb3
    have m4 := marker_transfer _ _ (chars "*") h3tr (by decide) hpre hb4
    have m5 := marker_transfer _ _ (chars "#") h3tr (by decide) hpre hb5
    have hfix := normalizeLine_eq_stages
      (collapse (stripHashComment (stripSlashComment (trimSpace l))))
      (by rw [houttr]; exact houtne)
      (by rw [houttr]; exact m1)
      (by rw [houttr]; exact m2)
      (by rw [houttr]; exact m3)
      (by rw [houttr]; exact m4)
      (by rw [houttr]; exact m5)
    rw [houttr] at hfix
    have hs1 : stripSlashComment
        (collapse (stripHashComment (stripSlashComment (trimSpace l)))) =
        collapse (stripHashComment (stripSlashComment (trimSpace l))) := by
      apply stripSlash_eq_none
      rw [chars_slashes, indexOfSub_pair_none_iff]
      exact hout_no2
    have hs2 : stripBlockComment
        (collapse (stripHashComment (stripSlashComment (trimSpace l)))) =
        collapse (stripHashComment (stripSlashComment (trimSpace l))) :=
      stripBlock_of_noBlock _ hout_nb
    have hs3 : stripHashComment
        (collapse (stripHashComment (stripSlashComment (trimSpace l)))) =
        collapse (stripHashComment (stripSlashComment (trimSpace l))) := by
      apply stripHash_eq_none
      rw [chars_hash, indexOfSub_single_none_iff]
      exact hout_hash
    rw [hs1, hs2, hs3] at hfix
    simp only [if_neg houtne] at hfix
    rw [collapse_collapse] at hfix
    rw [hout]
    exact hfix

/-- `normalizeLines` is the identity on a list of lines that are all
non-empty fixed points of `normalizeLine`. -/
theorem normalizeLines_fixed (M : List (List Char))
    (h : ∀ x ∈ M, normalizeLine x = x ∧ x ≠ []) :
    normalizeLines M = M := by
  induction M with
  | nil => rfl
  | cons x M' ih =>
    obtain ⟨hx1, hx2⟩ := h x (List.mem_cons_self _ _)
    have ih' := ih fun y hy => h y (List.mem_cons_of_mem _ hy)
    unfold normalizeLines at ih' ⊢
    rw [List.map_cons, List.filter_cons, hx1, if_pos (by simpa using hx2), ih']

/-- C6 counterexample: normalization is not idempotent — each pass removes
only the first `/* ... */` span of a line, so a line carrying two block
comments keeps changing on the second pass. -/
theorem normalizer_not_idempotent :
    normalizeLines (normalizeLines [chars "a /* b */ c /* d */ e"]) ≠
      normalizeLines [chars "a /* b */ c /* d */ e"] := by decide

/-- C6 amended: normalization is idempotent on every input whose lines are
free of the `/*` block-comment marker; a line containing `/*` can defeat
idempotence because only the first block-comment span is removed per pass. -/
theorem normalizer_idempotent (lines : List (List Char))
    (h : ∀ l ∈ lines, indexOfSub l (chars "/*") = none) :
    normalizeLines (normalizeLines lines) = normalizeLines lines := by
  apply normalizeLines_fixed
  intro out hout
  unfold normalizeLines at hout
  obtain ⟨hmap, hpred⟩ := List.mem_filter.mp hout
  have hne : out ≠ [] := by simpa using hpred
  obtain ⟨l, hl, rfl⟩ := List.mem_map.mp hmap
  have hnb : ¬contains2 l '/' '*' := by
    have hio := h l hl
    rw [chars_blockOpen] at hio
    exact (indexOfSub_pair_none_iff l '/' '*').mp hio
  exact ⟨normalizeLine_idem_of_noBlock l hnb, hne⟩

theorem normalizer_idempotent_witness :
    (∀ l ∈ [chars "  a   b // c", chars "# full line", chars "x  =  1 # y"],
      indexOfSub l (chars "/*") = none) ∧
    normalizeLines (normalizeLines
      [chars "  a   b // c", chars "# full line", chars "x  =  1 # y"]) =
      normalizeLines
        [chars "  a   b // c", chars "# full line", chars "x  =  1 # y"] :=
  ⟨by decide, normalizer_idempotent _ (by decide)⟩

end Mmc
